import Mathlib

/-!
# Verification of the red-black tree of `RBTree.hpp`

A shallow embedding of the `RBTree<K, V>` class instantiated at `K = V = Nat`.
Heap-allocated nodes are modelled by an inductive tree whose nodes carry a
stable identifier (`id`, the model of the node's address, handed out by a
fresh-id counter that models the allocator) and an explicit `parent` field
holding the id of the parent node (the model of the raw `Node* parent`
back-pointer, `none` for a null pointer).  The `unique_ptr` ownership links
are the tree structure itself.  Statefully updated variables (`m_size`, the
`is_done` flag threaded by reference through removal, the allocator) become
explicit arguments and results.
-/

namespace RBTreeSpec

inductive Color where
  | Red
  | Black
deriving DecidableEq, Repr

/-- One heap node: `id` models the node's address, `parent` the raw parent
pointer (as the parent's id), the two subtrees model the owning
`unique_ptr` children. -/
inductive Tree where
  | nil
  | node (id : Nat) (color : Color) (key : Nat) (value : Nat)
      (parent : Option Nat) (left : Tree) (right : Tree)
deriving DecidableEq, Repr

namespace Tree

/-- Null test on a node pointer. -/
def isNil : Tree → Bool
  | .nil => true
  | .node _ _ _ _ _ _ _ => false

/-- Mirror of `Node::is_red` (also covers the C++ `ptr != nullptr && ptr->is_red()` idiom:
a null pointer is not red). -/
def isRed : Tree → Bool
  | .node _ .Red _ _ _ _ _ => true
  | _ => false

/-- Assignment `n->color = c` (no-op on the unreachable null case). -/
def setColor : Tree → Color → Tree
  | .nil, _ => .nil
  | .node i _ k v p l r, c => .node i c k v p l r

/-- Assignment `n->parent = p` (no-op on null, matching the guarded
`if (x != nullptr) x->parent = ...;` updates). -/
def setParent : Tree → Option Nat → Tree
  | .nil, _ => .nil
  | .node i c k v _ l r, p => .node i c k v p l r

/-- Mirror of `Node::child(dir)`: `false` = `DIR_LEFT`, `true` = `DIR_RIGHT`. -/
def child : Tree → Bool → Tree
  | .nil, _ => .nil
  | .node _ _ _ _ _ l _, false => l
  | .node _ _ _ _ _ _ r, true => r

/-- Assignment `n->child(dir)->color = c`. -/
def setChildColor : Tree → Bool → Color → Tree
  | .nil, _, _ => .nil
  | .node i c k v p l r, false, cc => .node i c k v p (l.setColor cc) r
  | .node i c k v p l r, true, cc => .node i c k v p l (r.setColor cc)

/-- Read `n->key` (default for the unreachable null dereference). -/
def keyD : Tree → Nat
  | .nil => 0
  | .node _ _ k _ _ _ _ => k

/-- Read `n->value` (default for the unreachable null dereference). -/
def valueD : Tree → Nat
  | .nil => 0
  | .node _ _ _ v _ _ _ => v

/-- Read `n->color` (default for the unreachable null dereference). -/
def colorD : Tree → Color
  | .nil => .Black
  | .node _ c _ _ _ _ _ => c

/-- Read `n->left`. -/
def left : Tree → Tree
  | .nil => .nil
  | .node _ _ _ _ _ l _ => l

/-- Read `n->right`. -/
def right : Tree → Tree
  | .nil => .nil
  | .node _ _ _ _ _ _ r => r

end Tree

/-- Mirror of `RBTree::Result`. -/
inductive Result where
  | Inserted
  | Updated
  | Failed
deriving DecidableEq, Repr

/-- Mirror of `RBTree::single_rotation(root, dir)`.  `save = root->child(!dir)` is
promoted; the old root is recolored red, `save` black; the parent pointers
are updated exactly as in the source.  The `save == nullptr` case would be a
null dereference in C++ (it is unreachable from all call sites); the model
returns the tree unchanged there. -/
def single_rotation (root : Tree) (dir : Bool) : Tree :=
  match root with
  | .nil => .nil
  | .node rid rc rk rv rp rl rr =>
    match dir, rl, rr with
    | true, .node sid _ sk sv _ sl sr, _ =>
        -- save = left child; old root keeps its right subtree, receives
        -- save's right subtree (reparented), and hangs below save.
        Tree.node sid .Black sk sv rp sl
          (Tree.node rid .Red rk rv (some sid) (sr.setParent (some rid)) rr)
    | false, _, .node sid _ sk sv _ sl sr =>
        Tree.node sid .Black sk sv rp
          (Tree.node rid .Red rk rv (some sid) rl (sl.setParent (some rid)))
          sr
    | _, _, _ => Tree.node rid rc rk rv rp rl rr

/-- Mirror of `RBTree::double_rotation(root, dir)`:
`single_rotation(root->child(!dir), !dir); single_rotation(root, dir);`. -/
def double_rotation (root : Tree) (dir : Bool) : Tree :=
  match root with
  | .nil => .nil
  | .node rid rc rk rv rp rl rr =>
    if dir then single_rotation (Tree.node rid rc rk rv rp (single_rotation rl false) rr) true
    else single_rotation (Tree.node rid rc rk rv rp rl (single_rotation rr true)) false

/-- Mirror of `RBTree::insert_rebalance(root, dir)` (bottom-up insertion fixup). -/
def insert_rebalance (root : Tree) (dir : Bool) : Tree :=
  match root with
  | .nil => .nil
  | .node i c k v p l r =>
    let t := Tree.node i c k v p l r
    let ch := t.child dir
    let opp := t.child (!dir)
    if ch.isRed then
      if opp.isRed then
        -- color flip: root red, both children black
        Tree.node i .Red k v p (l.setColor .Black) (r.setColor .Black)
      else if (ch.child dir).isRed then
        single_rotation t (!dir)
      else if (ch.child (!dir)).isRed then
        double_rotation t (!dir)
      else t
    else t

/-- Mirror of `RBTree::remove_rebalance(root, dir)` (deletion fixup); returns the new
subtree together with the `is_done` flag it computes. -/
def remove_rebalance (root : Tree) (dir : Bool) : Tree × Bool :=
  -- Case 1: red sibling. NOTE: after this rotation the code recomputes
  -- `s = root->child(!dir)` from the *new* subtree root.
  let root1 := if (root.child (!dir)).isRed then single_rotation root dir else root
  match root1.child (!dir) with
  | .nil => (root1, false)
  | .node _ _ _ _ _ sl sr =>
    if !sl.isRed && !sr.isRed then
      -- Case 2: no red children: root black, sibling red.
      let is_done := root1.isRed
      ((root1.setColor .Black).setChildColor (!dir) .Red, is_done)
    else
      -- Case 3: single or double rotation, restore colors.
      let saved := root1.colorD
      let root2 :=
        if ((root1.child (!dir)).child (!dir)).isRed then single_rotation root1 dir
        else double_rotation root1 dir
      (((root2.setColor saved).setChildColor false .Black).setChildColor true .Black, true)

/-- Mirror of `RBTree::find_min` (leftmost node of a subtree, null for null input). -/
def find_min : Tree → Tree
  | .nil => .nil
  | .node i c k v p .nil r => .node i c k v p .nil r
  | .node _ _ _ _ _ (.node li lc lk lv lp ll lr) _ =>
      find_min (.node li lc lk lv lp ll lr)

/-- Mirror of `RBTree::find_max` (rightmost node of a subtree, null for null input). -/
def find_max : Tree → Tree
  | .nil => .nil
  | .node i c k v p l .nil => .node i c k v p l .nil
  | .node _ _ _ _ _ _ (.node ri rc rk rv rp rl rr) =>
      find_max (.node ri rc rk rv rp rl rr)

/-- Mirror of `RBTree::try_insert_key_val` in explicit-state form.  `msize` and `fresh`
thread `m_size` and the allocator; the result bundles the new subtree, the
`Result`, and the updated state. -/
structure InsOut where
  tree : Tree
  result : Result
  msize : Nat
  fresh : Nat
deriving DecidableEq, Repr

def try_insert_key_val (parent : Option Nat) (t : Tree) (key value : Nat)
    (allow_update : Bool) (msize fresh : Nat) : InsOut :=
  match t with
  | .nil =>
      -- end of subtree; insert a fresh red node here, ++m_size
      ⟨Tree.node fresh .Red key value parent .nil .nil, .Inserted, msize + 1, fresh + 1⟩
  | .node i c k v p l r =>
    if key < k then
      let o := try_insert_key_val (some i) l key value allow_update msize fresh
      let t1 := Tree.node i c k v p o.tree r
      ⟨if o.result = .Inserted then insert_rebalance t1 false else t1, o.result, o.msize, o.fresh⟩
    else if key > k then
      let o := try_insert_key_val (some i) r key value allow_update msize fresh
      let t1 := Tree.node i c k v p l o.tree
      ⟨if o.result = .Inserted then insert_rebalance t1 true else t1, o.result, o.msize, o.fresh⟩
    else
      -- key already exists
      if allow_update then ⟨Tree.node i c k value p l r, .Updated, msize, fresh⟩
      else ⟨Tree.node i c k v p l r, .Failed, msize, fresh⟩

/-- Result bundle of `RBTree::try_remove_key`: new subtree, the by-reference
`is_done` flag, the removed value, and the updated `m_size`. -/
structure RemOut where
  tree : Tree
  is_done : Bool
  removed : Option Nat
  msize : Nat
deriving DecidableEq, Repr

/-- Mirror of `RBTree::try_remove_key(root, is_done, key)`.  The in-out `is_done`
reference becomes an explicit argument and result; `m_size` is threaded
through `msize`.  In the two-children branch the code overwrites the matched
node with the key/value of `find_max(root->left)` and falls through to the
shared descent tail with `key_ptr` now pointing at the successor's key, so
that `dir = (root->key < *key_ptr)` evaluates to `DIR_LEFT` there. -/
def try_remove_key (t : Tree) (is_done : Bool) (key : Nat) (msize : Nat) : RemOut :=
  match t with
  | .nil => ⟨.nil, true, none, msize⟩
  | .node i c k v p l r =>
    if k = key then
      if l = .nil ∨ r = .nil then
        -- at most one child: splice it in place of this node
        let child := if l = .nil then r else l
        let cd : Tree × Bool :=
          if c = .Red then (child, true)
          else if child.isRed then (child.setColor .Black, true)
          else (child, is_done)
        ⟨cd.1.setParent p, cd.2, some v, msize - 1⟩
      else
        -- two children: copy in the predecessor's key/value, then the
        -- descent tail with dir = (successor->key < successor->key) = LEFT
        let sk := (find_max l).keyD
        let sv := (find_max l).valueD
        let o := try_remove_key l is_done sk msize
        let t2 := Tree.node i c sk sv p o.tree r
        let fin := if !o.is_done then remove_rebalance t2 false else (t2, o.is_done)
        ⟨fin.1, fin.2, some v, o.msize⟩
    else if k < key then
      -- dir = DIR_RIGHT
      let o := try_remove_key r is_done key msize
      let t2 := Tree.node i c k v p l o.tree
      let fin := if !o.is_done then remove_rebalance t2 true else (t2, o.is_done)
      ⟨fin.1, fin.2, o.removed, o.msize⟩
    else
      -- dir = DIR_LEFT
      let o := try_remove_key l is_done key msize
      let t2 := Tree.node i c k v p o.tree r
      let fin := if !o.is_done then remove_rebalance t2 false else (t2, o.is_done)
      ⟨fin.1, fin.2, o.removed, o.msize⟩

/-- Mirror of `RBTree::try_find_key`. -/
def try_find_key : Tree → Nat → Option Nat
  | .nil, _ => none
  | .node _ _ k v _ l r, key =>
    if key < k then try_find_key l key
    else if key > k then try_find_key r key
    else some v

/-- Mirror of `RBTree::validate_red_black_tree`: returns a (valid, black-height) pair;
an invariant failure (an `assert` in the source) is the `(false, 0)` result. -/
def validate_red_black_tree : Tree → Bool × Nat
  | .nil => (true, 1)
  | .node _ c k _ _ l r =>
    -- consecutive red links?
    if decide (c = Color.Red) && (l.isRed || r.isRed) then (false, 0)
    else
      let lres := validate_red_black_tree l
      let rres := validate_red_black_tree r
      -- invalid binary search tree? (immediate children only:
      -- `left != nullptr && left->key >= root->key`, and symmetrically)
      let bad_left : Bool := !l.isNil && decide (l.keyD ≥ k)
      let bad_right : Bool := !r.isNil && decide (r.keyD ≤ k)
      if bad_left || bad_right then (false, 0)
      else if decide (lres.2 ≠ 0) && decide (rres.2 ≠ 0) && decide (lres.2 ≠ rres.2) then
        (false, 0)
      else if decide (lres.2 ≠ 0) && decide (rres.2 ≠ 0) then
        (true, if c = Color.Red then lres.2 else lres.2 + 1)
      else (false, 0)

/-- Mirror of `RBTree::validate_parents(node, expected_parent)`: `true` when no
assertion fires, i.e. every parent pointer equals the structural parent. -/
def validate_parents : Tree → Option Nat → Bool
  | .nil, _ => true
  | .node i _ _ _ p l r, expected =>
      decide (p = expected) && validate_parents l (some i) && validate_parents r (some i)

/-- The `RBTree` object: root, cached `m_size`, and the allocator counter
(`m_fresh` models the source of fresh node addresses). -/
structure RBTree where
  m_root : Tree
  m_size : Nat
  m_fresh : Nat
deriving DecidableEq, Repr

namespace RBTree

/-- A default-constructed tree. -/
def empty : RBTree := ⟨.nil, 0, 0⟩

/-- Mirror of `RBTree::insert` (strict, `allow_update = false`); forces the root black
after a structural insertion. -/
def insert (t : RBTree) (key value : Nat) : RBTree × Result :=
  let o := try_insert_key_val none t.m_root key value false t.m_size t.m_fresh
  (⟨if o.result = .Inserted then o.tree.setColor .Black else o.tree, o.msize, o.fresh⟩,
   o.result)

/-- Mirror of `RBTree::insert_or_update` (`allow_update = true`). -/
def insert_or_update (t : RBTree) (key value : Nat) : RBTree × Result :=
  let o := try_insert_key_val none t.m_root key value true t.m_size t.m_fresh
  (⟨if o.result = .Inserted then o.tree.setColor .Black else o.tree, o.msize, o.fresh⟩,
   o.result)

/-- Mirror of `RBTree::remove`; forces the root black when a value was removed and the
tree is still non-empty. -/
def remove (t : RBTree) (key : Nat) : RBTree × Option Nat :=
  let o := try_remove_key t.m_root false key t.m_size
  (⟨if o.removed.isSome ∧ o.tree ≠ .nil then o.tree.setColor .Black else o.tree,
    o.msize, t.m_fresh⟩,
   o.removed)

/-- Mirror of `RBTree::find`. -/
def find (t : RBTree) (key : Nat) : Option Nat := try_find_key t.m_root key

/-- Mirror of `RBTree::size`. -/
def size (t : RBTree) : Nat := t.m_size

/-- Mirror of `RBTree::is_empty`. -/
def is_empty (t : RBTree) : Bool := decide (t.m_root = .nil)

/-- Mirror of `RBTree::validate`: `true` iff no assertion fires.  It checks the
size/emptiness consistency, the parent pointers, and the (valid, height)
pair of `validate_red_black_tree`. -/
def validate_ok (t : RBTree) : Bool :=
  if t.m_root = .nil then decide (t.m_size = 0)
  else
    decide (t.m_size ≠ 0) && validate_parents t.m_root none &&
      (let vr := validate_red_black_tree t.m_root
       vr.1 && decide (vr.2 ≠ 0))

end RBTree

/-! ## Observation functions and spec-side predicates

Everything below is stating apparatus: inorder projections, the data-model
invariants of the specification (section 3 of `spec.md`), list-level
reference semantics used to state functional-correctness claims, and the
op-sequence driver used to state whole-lifecycle claims. -/

/-- Inorder list of (key, value) pairs of a subtree. -/
def toList : Tree → List (Nat × Nat)
  | .nil => []
  | .node _ _ k v _ l r => toList l ++ (k, v) :: toList r

/-- Inorder list of keys. -/
def keysList (t : Tree) : List Nat := (toList t).map Prod.fst

/-- Every key of the subtree satisfies `f`. -/
def Tree.allKeys : Tree → (Nat → Bool) → Bool
  | .nil, _ => true
  | .node _ _ k _ _ l r, f => f k && l.allKeys f && r.allKeys f

/-- Invariant 1 (spec section 3): binary-search-tree order — all keys of the
left subtree below the node's key, all keys of the right subtree above. -/
def bst : Tree → Bool
  | .nil => true
  | .node _ _ k _ _ l r =>
      l.allKeys (fun x => decide (x < k)) && r.allKeys (fun x => decide (k < x)) &&
        bst l && bst r

/-- Invariant 2 (spec section 3): no red node has a red child. -/
def noRedRed : Tree → Bool
  | .nil => true
  | .node _ c _ _ _ l r =>
      (if c = Color.Red then !l.isRed && !r.isRed else true) && noRedRed l && noRedRed r

/-- Invariant 3 (spec section 3): the black-height is well defined — every
path from a node to a descendant empty position passes the same number of
black nodes.  `none` encodes a violation. -/
def bheight : Tree → Option Nat
  | .nil => some 0
  | .node _ c _ _ _ l r =>
    match bheight l, bheight r with
    | some a, some b =>
        if a = b then some (a + (if c = Color.Black then 1 else 0)) else none
    | _, _ => none

/-- Invariant 4 (spec section 3): the root, if present, is black. -/
def rootBlackOk : Tree → Bool
  | .nil => true
  | .node _ c _ _ _ _ _ => decide (c = Color.Black)

/-- Invariant 5 (spec section 3): every node's parent reference equals its
structural parent (the root's is null). -/
def parentLinksOk : Tree → Option Nat → Bool
  | .nil, _ => true
  | .node i _ _ _ p l r, expected =>
      decide (p = expected) && parentLinksOk l (some i) && parentLinksOk r (some i)

/-- Number of nodes reachable from a subtree root. -/
def countNodes : Tree → Nat
  | .nil => 0
  | .node _ _ _ _ _ l r => countNodes l + countNodes r + 1

/-- Only the key-order part of what `validate_red_black_tree` inspects:
each node's immediate children are ordered with respect to the node
(strictly weaker than invariant 1, which constrains whole subtrees). -/
def localOrd : Tree → Bool
  | .nil => true
  | .node _ _ k _ _ l r =>
      (l.isNil || decide (l.keyD < k)) && (r.isNil || decide (k < r.keyD)) &&
      localOrd l && localOrd r

/-- All six data-model invariants of spec section 3 for a whole `RBTree`. -/
def rbInvariants (t : RBTree) : Bool :=
  bst t.m_root && noRedRed t.m_root && (bheight t.m_root).isSome &&
    rootBlackOk t.m_root && parentLinksOk t.m_root none &&
    decide (t.m_size = countNodes t.m_root)

/-- A public mutating operation of the container. -/
inductive Op where
  | ins (key value : Nat)
  | insUpd (key value : Nat)
  | rem (key : Nat)
deriving DecidableEq, Repr

/-- Apply one public operation. -/
def applyOp (t : RBTree) (op : Op) : RBTree :=
  match op with
  | .ins k v => (t.insert k v).1
  | .insUpd k v => (t.insert_or_update k v).1
  | .rem k => (t.remove k).1

/-- Apply a sequence of public operations. -/
def applyOps (t : RBTree) : List Op → RBTree
  | [] => t
  | op :: ops => applyOps (applyOp t op) ops

/-- Reference lookup on an association list (first match). -/
def lookupKey (k : Nat) : List (Nat × Nat) → Option Nat
  | [] => none
  | (a, b) :: rest => if k = a then some b else lookupKey k rest

/-- Reference removal of the first entry with the given key. -/
def eraseKey (k : Nat) : List (Nat × Nat) → List (Nat × Nat)
  | [] => []
  | (a, b) :: rest => if k = a then rest else (a, b) :: eraseKey k rest

/-- Reference insertion into a sorted association list, mirroring the
insertion contract: insert before the first larger key, and on an equal key
either update (`au = true`) or fail. -/
def insList (k v : Nat) (au : Bool) : List (Nat × Nat) → List (Nat × Nat) × Result
  | [] => ([(k, v)], .Inserted)
  | (a, b) :: rest =>
    if k < a then ((k, v) :: (a, b) :: rest, .Inserted)
    else if k > a then
      let o := insList k v au rest
      ((a, b) :: o.1, o.2)
    else if au then ((a, v) :: rest, .Updated)
    else ((a, b) :: rest, .Failed)

/-- Read the value of a node, `none` for the null tree. -/
def Tree.valueOpt : Tree → Option Nat
  | .nil => none
  | .node _ _ _ v _ _ _ => some v

/-- The node with the given key, located by binary-search descent (the node
`try_find_key` stops at); `nil` when the key is absent. -/
def nodeAt : Tree → Nat → Tree
  | .nil, _ => .nil
  | .node i c k v p l r, key =>
    if key < k then nodeAt l key
    else if key > k then nodeAt r key
    else .node i c k v p l r

/-- Overwrite only the stored value of the given key (pure value update, no
restructuring); used to state the `Updated` contract. -/
def updValue : Tree → Nat → Nat → Tree
  | .nil, _, _ => .nil
  | .node i c k v p l r, key, nv =>
    if key < k then .node i c k v p (updValue l key nv) r
    else if key > k then .node i c k v p l (updValue r key nv)
    else .node i c k nv p l r

/-- Erase all stored values (keep ids, colors, keys, parents, structure);
two trees with equal `stripValues` differ at most in stored values. -/
def stripValues : Tree → Tree
  | .nil => .nil
  | .node i c k _ p l r => .node i c k 0 p (stripValues l) (stripValues r)

/-- Mirror of the static `RBTree::visit_inorder(node, visitor)`: left, root,
right, aborting as soon as the visitor returns `false`. -/
def visit_inorder (t : Tree) (visitor : Nat → Nat → Bool) : Bool :=
  match t with
  | .nil => true
  | .node _ _ k v _ l r =>
    if !visit_inorder l visitor then false
    else if !visitor k v then false
    else visit_inorder r visitor

/-- Instrumented `visit_inorder`: additionally records, in order, every
(key, value) pair the visitor is invoked on.  The second component is the
value `visit_inorder` returns. -/
def visitTrace (t : Tree) (visitor : Nat → Nat → Bool) : List (Nat × Nat) × Bool :=
  match t with
  | .nil => ([], true)
  | .node _ _ k v _ l r =>
    let o := visitTrace l visitor
    if !o.2 then (o.1, false)
    else if !visitor k v then (o.1 ++ [(k, v)], false)
    else
      let o2 := visitTrace r visitor
      (o.1 ++ (k, v) :: o2.1, o2.2)

/-- Reference visit of a list: call the visitor until it signals stop; the
result is the visited prefix and whether the whole list was visited. -/
def traceList (visitor : Nat → Nat → Bool) : List (Nat × Nat) → List (Nat × Nat) × Bool
  | [] => ([], true)
  | (k, v) :: rest =>
    if visitor k v then
      let o := traceList visitor rest
      ((k, v) :: o.1, o.2)
    else ([(k, v)], false)

/-- Build a tree from an arbitrary sequence of insertions (`true` = the
insert-or-update overload, `false` = strict insert). -/
def buildTree (ops : List (Bool × Nat × Nat)) : RBTree :=
  ops.foldl
    (fun t op =>
      if op.1 then (t.insert_or_update op.2.1 op.2.2).1 else (t.insert op.2.1 op.2.2).1)
    RBTree.empty

/-! ## Iterator model

An iterator holds a `Node*`; a non-null node of the tree is modelled by its
position: the list of child directions (`false` = left, `true` = right)
from the root, and the null/end iterator by `none`.  The parent-pointer
walks of `next_node` / `prev_node` become structural path manipulations:
moving to `node->parent` drops the last direction.  This is the (sound)
reading of the pointer walk under invariant 5, which `validate_parents`
asserts and which holds for every tree the public API builds. -/

/-- Subtree at a position. -/
def subtreeAt : Tree → List Bool → Tree
  | t, [] => t
  | .nil, _ :: _ => .nil
  | .node _ _ _ _ _ l _, false :: p => subtreeAt l p
  | .node _ _ _ _ _ _ r, true :: p => subtreeAt r p

/-- Position of `find_min` within a subtree (all-left descent). -/
def minPath : Tree → List Bool
  | .nil => []
  | .node _ _ _ _ _ .nil _ => []
  | .node _ _ _ _ _ (.node li lc lk lv lp ll lr) _ =>
      false :: minPath (.node li lc lk lv lp ll lr)

/-- Position of `find_max` within a subtree (all-right descent). -/
def maxPath : Tree → List Bool
  | .nil => []
  | .node _ _ _ _ _ _ .nil => []
  | .node _ _ _ _ _ _ (.node ri rc rk rv rp rl rr) =>
      true :: maxPath (.node ri rc rk rv rp rl rr)

/-- Drop the trailing run of direction `d` from a position: the model of the
loop `while (node->parent != nullptr && node == node->parent->child(d))
node = node->parent;`. -/
def stripTrailing (d : Bool) (p : List Bool) : List Bool :=
  (p.reverse.dropWhile (fun x => decide (x = d))).reverse

/-- Mirror of `RBTree::next_node` on positions: descend to the minimum of
the right subtree if any, otherwise climb while coming from a right child
and step to the parent (`none` = the null pointer / end). -/
def next_node (t : Tree) (p : List Bool) : Option (List Bool) :=
  match subtreeAt t p with
  | .nil => none
  | .node _ _ _ _ _ _ r =>
    match r with
    | .node _ _ _ _ _ _ _ => some (p ++ true :: minPath r)
    | .nil =>
      let q := stripTrailing true p
      if q = [] then none else some q.dropLast

/-- Mirror of `RBTree::prev_node` on positions (symmetric rule). -/
def prev_node (t : Tree) (p : List Bool) : Option (List Bool) :=
  match subtreeAt t p with
  | .nil => none
  | .node _ _ _ _ _ l _ =>
    match l with
    | .node _ _ _ _ _ _ _ => some (p ++ false :: maxPath l)
    | .nil =>
      let q := stripTrailing false p
      if q = [] then none else some q.dropLast

/-- Mirror of `InorderIter::operator++`: `m_node = next_node(m_node)`, and
`next_node(nullptr) = nullptr`. -/
def iter_inc (t : Tree) : Option (List Bool) → Option (List Bool)
  | none => none
  | some p => next_node t p

/-- Mirror of `InorderIter::operator--`: from the end iterator go to
`find_max(m_root)`, otherwise `m_node = prev_node(m_node)`. -/
def iter_dec (t : Tree) : Option (List Bool) → Option (List Bool)
  | none => match t with
    | .nil => none
    | .node _ _ _ _ _ _ _ => some (maxPath t)
  | some p => prev_node t p

/-- Mirror of `RBTree::begin`: the position of `find_min(m_root)` (`none`
for the empty tree, i.e. `begin() == end()`). -/
def begin_pos (t : Tree) : Option (List Bool) :=
  match t with
  | .nil => none
  | .node _ _ _ _ _ _ _ => some (minPath t)

/-- Mirror of `RBTree::end`: the null-node iterator. -/
def end_pos : Option (List Bool) := none

/-! ## Concrete inputs used by counterexamples and witnesses -/

/-- A small valid red-black tree used as concrete input by witnesses:
black root 2 with red children 1 and 3. -/
def sampleLeft : Tree := Tree.node 1 Color.Red 1 10 (some 0) Tree.nil Tree.nil

/-- Right child of the sample tree. -/
def sampleRight : Tree := Tree.node 2 Color.Red 3 30 (some 0) Tree.nil Tree.nil

/-- The sample container: keys 1, 2, 3 with values 10, 20, 30. -/
def sampleTree : RBTree :=
  ⟨Tree.node 0 Color.Black 2 20 none sampleLeft sampleRight, 3, 3⟩

/-- A sample insertion sequence for the traversal witness. -/
def sampleOps : List (Bool × Nat × Nat) := [(false, 2, 20), (false, 1, 10), (false, 3, 30)]

/-- A sample visitor that stops at keys at least 3. -/
def sampleVisitor : Nat → Nat → Bool := fun k _ => decide (k < 3)

/-- Six ascending insertions; the resulting tree satisfies all invariants. -/
def c1InsertOps : List Op :=
  [.ins 0 0, .ins 1 10, .ins 2 20, .ins 3 30, .ins 4 40, .ins 5 50]

/-- The same insertions followed by `remove(0)`: the removal triggers the
red-sibling case of `remove_rebalance` and breaks the black-height
invariant. -/
def c1FailingOps : List Op := c1InsertOps ++ [.rem 0]

/-- A tree whose root is a single red node, with consistent size and parent
links: it violates invariant 4 (root must be black) and nothing else. -/
def redRootTree : RBTree := ⟨Tree.node 0 .Red 1 1 none .nil .nil, 1, 1⟩

end RBTreeSpec

namespace RBTreeSpec

theorem toList_setColor (t : Tree) (c : Color) : toList (t.setColor c) = toList t := by
  cases t <;> rfl

theorem toList_setParent (t : Tree) (p : Option Nat) : toList (t.setParent p) = toList t := by
  cases t <;> rfl

theorem toList_setChildColor (t : Tree) (d : Bool) (c : Color) :
    toList (t.setChildColor d c) = toList t := by
  cases t <;> cases d <;> simp [Tree.setChildColor, toList, toList_setColor]

theorem toList_single_rotation (t : Tree) (d : Bool) :
    toList (single_rotation t d) = toList t := by
  cases t with
  | nil => rfl
  | node i c k v p l r =>
    cases d with
    | false =>
      cases r <;> simp [single_rotation, toList, toList_setParent, List.append_assoc]
    | true =>
      cases l <;> simp [single_rotation, toList, toList_setParent, List.append_assoc]

theorem toList_double_rotation (t : Tree) (d : Bool) :
    toList (double_rotation t d) = toList t := by
  cases t with
  | nil => rfl
  | node i c k v p l r =>
    cases d <;> simp [double_rotation, toList, toList_single_rotation]

theorem toList_insert_rebalance (t : Tree) (d : Bool) :
    toList (insert_rebalance t d) = toList t := by
  cases t with
  | nil => rfl
  | node i c k v p l r =>
    simp only [insert_rebalance]
    split_ifs <;>
      simp [toList, toList_setColor, toList_single_rotation, toList_double_rotation]

theorem toList_remove_rebalance (t : Tree) (d : Bool) :
    toList (remove_rebalance t d).1 = toList t := by
  have hroot1 : toList (if (t.child (!d)).isRed then single_rotation t d else t) = toList t := by
    split_ifs <;> simp [toList_single_rotation]
  simp only [remove_rebalance]
  split
  · simpa using hroot1
  · split_ifs <;>
      simp [toList_setChildColor, toList_setColor, toList_single_rotation,
        toList_double_rotation, hroot1]

end RBTreeSpec

namespace RBTreeSpec

theorem lookupKey_append (k : Nat) (A B : List (Nat × Nat)) :
    lookupKey k (A ++ B) =
      if (lookupKey k A).isSome then lookupKey k A else lookupKey k B := by
  induction A with
  | nil => simp [lookupKey]
  | cons p rest ih =>
    obtain ⟨a, b⟩ := p
    by_cases h : k = a <;> simp [lookupKey, h, ih]

theorem lookupKey_eq_none (k : Nat) (L : List (Nat × Nat)) (h : ∀ p ∈ L, p.1 ≠ k) :
    lookupKey k L = none := by
  induction L with
  | nil => rfl
  | cons p rest ih =>
    obtain ⟨a, b⟩ := p
    have ha : a ≠ k := h (a, b) (List.mem_cons_self _ _)
    have hka : ¬ (k = a) := fun hk => ha hk.symm
    simp only [lookupKey, if_neg hka]
    exact ih fun q hq => h q (List.mem_cons_of_mem _ hq)

theorem eraseKey_append (k : Nat) (A B : List (Nat × Nat)) :
    eraseKey k (A ++ B) =
      if (lookupKey k A).isSome then eraseKey k A ++ B else A ++ eraseKey k B := by
  induction A with
  | nil => simp [lookupKey, eraseKey]
  | cons p rest ih =>
    obtain ⟨a, b⟩ := p
    by_cases h : k = a <;> simp [lookupKey, eraseKey, h, ih] <;> split_ifs <;> simp

theorem eraseKey_of_none (k : Nat) (L : List (Nat × Nat)) (h : lookupKey k L = none) :
    eraseKey k L = L := by
  induction L with
  | nil => rfl
  | cons p rest ih =>
    obtain ⟨a, b⟩ := p
    simp only [lookupKey] at h
    by_cases hk : k = a
    · simp [hk] at h
    · simp only [eraseKey, if_neg hk]
      rw [ih (by simpa [hk] using h)]

theorem eraseKey_sublist (k : Nat) (L : List (Nat × Nat)) :
    List.Sublist (eraseKey k L) L := by
  induction L with
  | nil => simp [eraseKey]
  | cons p rest ih =>
    obtain ⟨a, b⟩ := p
    by_cases h : k = a
    · simpa [eraseKey, h] using List.sublist_cons_self (a, b) rest
    · simpa [eraseKey, h] using ih.cons₂ (a, b)

theorem lookup_of_mem_sorted (L : List (Nat × Nat)) (a bv : Nat)
    (hs : List.Sorted (· < ·) (L.map Prod.fst)) (hm : (a, bv) ∈ L) :
    lookupKey a L = some bv := by
  induction L with
  | nil => simp at hm
  | cons p rest ih =>
    obtain ⟨x, y⟩ := p
    simp only [List.map_cons, List.sorted_cons] at hs
    rcases List.mem_cons.1 hm with h | h
    · simp only [Prod.ext_iff] at h
      obtain ⟨rfl, rfl⟩ := h
      simp [lookupKey]
    · have hxa : x < a := hs.1 a (by exact List.mem_map_of_mem Prod.fst h)
      simp only [lookupKey, if_neg (by omega : ¬ a = x)]
      exact ih hs.2 h

theorem lookup_erase_self (k : Nat) (L : List (Nat × Nat))
    (hs : List.Sorted (· < ·) (L.map Prod.fst)) :
    lookupKey k (eraseKey k L) = none := by
  induction L with
  | nil => rfl
  | cons p rest ih =>
    obtain ⟨a, b⟩ := p
    simp only [List.map_cons, List.sorted_cons] at hs
    by_cases h : k = a
    · subst h
      simp only [eraseKey, if_pos rfl]
      exact lookupKey_eq_none _ _ fun q hq => by
        have := hs.1 q.1 (List.mem_map_of_mem Prod.fst hq)
        omega
    · simp only [eraseKey, if_neg h, lookupKey, if_neg h]
      exact ih hs.2

theorem lookup_erase_ne (k k2 : Nat) (L : List (Nat × Nat)) (h : k2 ≠ k) :
    lookupKey k2 (eraseKey k L) = lookupKey k2 L := by
  induction L with
  | nil => rfl
  | cons p rest ih =>
    obtain ⟨a, b⟩ := p
    by_cases ha : k = a
    · subst ha
      simp [eraseKey, lookupKey, if_neg h]
    · by_cases hb : k2 = a <;> simp [eraseKey, lookupKey, ha, hb, ih]

end RBTreeSpec

namespace RBTreeSpec

theorem eraseKey_cons (k a b : Nat) (rest : List (Nat × Nat)) :
    eraseKey k ((a, b) :: rest) = if k = a then rest else (a, b) :: eraseKey k rest := rfl

theorem erase_getLast (L : List (Nat × Nat)) (a b : Nat)
    (hs : List.Sorted (· < ·) (L.map Prod.fst)) (hl : L.getLast? = some (a, b)) :
    eraseKey a L = L.dropLast := by
  induction L with
  | nil => simp at hl
  | cons p rest ih =>
    obtain ⟨x, y⟩ := p
    simp only [List.map_cons, List.sorted_cons] at hs
    cases rest with
    | nil =>
      simp only [List.getLast?_singleton, Option.some.injEq, Prod.mk.injEq] at hl
      obtain ⟨rfl, rfl⟩ := hl
      simp [eraseKey]
    | cons q rest2 =>
      rw [List.getLast?_cons_cons] at hl
      have hmem : (a, b) ∈ q :: rest2 := List.mem_of_mem_getLast? hl
      have hxa : x < a := hs.1 a (List.mem_map_of_mem Prod.fst hmem)
      have hne : ¬ (a = x) := by omega
      rw [List.dropLast_cons_of_ne_nil (by simp)]
      rw [eraseKey_cons, if_neg hne, ih hs.2 hl]

theorem lookup_getLast (L : List (Nat × Nat)) (a b : Nat)
    (hs : List.Sorted (· < ·) (L.map Prod.fst)) (hl : L.getLast? = some (a, b)) :
    lookupKey a L = some b :=
  lookup_of_mem_sorted L a b hs (List.mem_of_mem_getLast? hl)

theorem lookupKey_cons (k a b : Nat) (rest : List (Nat × Nat)) :
    lookupKey k ((a, b) :: rest) = if k = a then some b else lookupKey k rest := rfl

theorem insList_mem (k v : Nat) (au : Bool) (L : List (Nat × Nat)) :
    ∀ p ∈ (insList k v au L).1, p = (k, v) ∨ p ∈ L := by
  induction L with
  | nil => simp [insList]
  | cons q rest ih =>
    obtain ⟨a, b⟩ := q
    intro p hp
    simp only [insList] at hp
    split_ifs at hp with h1 h2 h3
    · simp only [List.mem_cons] at hp ⊢
      tauto
    · simp only [List.mem_cons] at hp ⊢
      rcases hp with rfl | hp
      · tauto
      · rcases ih p hp with h | h <;> tauto
    · have hka : k = a := by omega
      subst hka
      simp only [List.mem_cons] at hp ⊢
      tauto
    · simp only [List.mem_cons] at hp ⊢
      tauto

theorem insList_sorted (k v : Nat) (au : Bool) (L : List (Nat × Nat))
    (hs : List.Sorted (· < ·) (L.map Prod.fst)) :
    List.Sorted (· < ·) ((insList k v au L).1.map Prod.fst) := by
  induction L with
  | nil => simp [insList]
  | cons q rest ih =>
    obtain ⟨a, b⟩ := q
    simp only [List.map_cons, List.sorted_cons] at hs
    simp only [insList]
    split_ifs with h1 h2 h3
    · refine List.sorted_cons.2 ⟨?_, List.sorted_cons.2 ⟨hs.1, hs.2⟩⟩
      intro c hc
      simp only [List.map_cons, List.mem_cons] at hc
      rcases hc with rfl | hc
      · exact h1
      · exact lt_trans h1 (hs.1 c hc)
    · refine List.sorted_cons.2 ⟨?_, ih hs.2⟩
      intro c hc
      simp only [List.mem_map] at hc
      obtain ⟨p, hp, rfl⟩ := hc
      rcases insList_mem k v au rest p hp with rfl | hmem
      · omega
      · exact hs.1 p.1 (List.mem_map_of_mem Prod.fst hmem)
    · exact List.sorted_cons.2 ⟨hs.1, hs.2⟩
    · exact List.sorted_cons.2 ⟨hs.1, hs.2⟩

theorem insList_result_iff (k v : Nat) (au : Bool) (L : List (Nat × Nat))
    (hs : List.Sorted (· < ·) (L.map Prod.fst)) :
    ((insList k v au L).2 = Result.Inserted ↔ lookupKey k L = none) := by
  induction L with
  | nil => simp [insList, lookupKey]
  | cons q rest ih =>
    obtain ⟨a, b⟩ := q
    simp only [List.map_cons, List.sorted_cons] at hs
    simp only [insList]
    split_ifs with h1 h2 h3
    · have hka : ¬ (k = a) := by omega
      rw [lookupKey_cons, if_neg hka]
      simp only [eq_self_iff_true, true_iff]
      exact lookupKey_eq_none _ _ fun p hp => by
        have := hs.1 p.1 (List.mem_map_of_mem Prod.fst hp)
        omega
    · have hka : ¬ (k = a) := by omega
      rw [lookupKey_cons, if_neg hka]
      exact ih hs.2
    · have hka : k = a := by omega
      rw [lookupKey_cons, if_pos hka]
      simp
    · have hka : k = a := by omega
      rw [lookupKey_cons, if_pos hka]
      simp

end RBTreeSpec

namespace RBTreeSpec

theorem insList_lookup_update (k v : Nat) (L : List (Nat × Nat)) :
    lookupKey k (insList k v true L).1 = some v := by
  induction L with
  | nil => simp [insList, lookupKey]
  | cons q rest ih =>
    obtain ⟨a, b⟩ := q
    simp only [insList]
    split_ifs with h1 h2
    · simp [lookupKey]
    · have hka : ¬ (k = a) := by omega
      rw [lookupKey_cons, if_neg hka]
      exact ih
    · have hka : k = a := by omega
      rw [lookupKey_cons, if_pos hka]

theorem insList_lookup_absent (k v : Nat) (au : Bool) (L : List (Nat × Nat))
    (h : lookupKey k L = none) :
    lookupKey k (insList k v au L).1 = some v := by
  induction L with
  | nil => simp [insList, lookupKey]
  | cons q rest ih =>
    obtain ⟨a, b⟩ := q
    rw [lookupKey_cons] at h
    have hka : ¬ (k = a) := by
      intro hk
      simp [hk] at h
    rw [if_neg hka] at h
    simp only [insList]
    split_ifs with h1 h2
    · simp [lookupKey]
    · rw [lookupKey_cons, if_neg hka]
      exact ih h
    · omega
    · omega

theorem insList_append_lt (k v k0 v0 : Nat) (au : Bool) (A B0 : List (Nat × Nat))
    (h : k < k0) :
    insList k v au (A ++ (k0, v0) :: B0) =
      ((insList k v au A).1 ++ (k0, v0) :: B0, (insList k v au A).2) := by
  induction A with
  | nil => simp [insList, h]
  | cons q rest ih =>
    obtain ⟨a, b⟩ := q
    simp only [List.cons_append, insList]
    split_ifs with h1 h2 <;> simp [ih]

theorem insList_append_gt (k v : Nat) (au : Bool) (A B : List (Nat × Nat))
    (h : ∀ p ∈ A, p.1 < k) :
    insList k v au (A ++ B) = (A ++ (insList k v au B).1, (insList k v au B).2) := by
  induction A with
  | nil => simp
  | cons q rest ih =>
    obtain ⟨a, b⟩ := q
    have hak : a < k := h (a, b) (List.mem_cons_self _ _)
    simp only [List.cons_append, insList]
    rw [if_neg (by omega), if_pos (by omega)]
    simp [ih fun p hp => h p (List.mem_cons_of_mem _ hp)]

theorem keysList_node (i : Nat) (c : Color) (k v : Nat) (p : Option Nat) (l r : Tree) :
    keysList (.node i c k v p l r) = keysList l ++ k :: keysList r := by
  simp [keysList, toList]

theorem allKeys_iff (t : Tree) (f : Nat → Bool) :
    t.allKeys f = true ↔ ∀ x ∈ keysList t, f x = true := by
  induction t with
  | nil => simp [Tree.allKeys, keysList, toList]
  | node i c k v p l r ihl ihr =>
    rw [keysList_node]
    simp only [Tree.allKeys, Bool.and_eq_true, ihl, ihr, List.mem_append, List.mem_cons]
    constructor
    · rintro ⟨⟨hk, hl⟩, hr⟩ x hx
      rcases hx with hx | rfl | hx
      · exact hl x hx
      · exact hk
      · exact hr x hx
    · intro h
      exact ⟨⟨h k (Or.inr (Or.inl rfl)), fun x hx => h x (Or.inl hx)⟩,
        fun x hx => h x (Or.inr (Or.inr hx))⟩

theorem bst_iff_sorted (t : Tree) : bst t = true ↔ List.Sorted (· < ·) (keysList t) := by
  induction t with
  | nil => simp [bst, keysList, toList]
  | node i c k v p l r ihl ihr =>
    rw [keysList_node]
    simp only [bst, Bool.and_eq_true, ihl, ihr, allKeys_iff, decide_eq_true_eq]
    rw [show (List.Sorted (· < ·) (keysList l ++ k :: keysList r) ↔
          List.Sorted (· < ·) (keysList l) ∧ List.Sorted (· < ·) (k :: keysList r) ∧
            ∀ x ∈ keysList l, ∀ y ∈ k :: keysList r, x < y)
        from List.pairwise_append, List.sorted_cons]
    constructor
    · rintro ⟨⟨⟨hL, hR⟩, hl⟩, hr⟩
      refine ⟨hl, ⟨hR, hr⟩, ?_⟩
      intro x hx y hy
      rcases List.mem_cons.1 hy with rfl | hy
      · exact hL x hx
      · exact lt_trans (hL x hx) (hR y hy)
    · rintro ⟨hl, ⟨hR, hr⟩, hcross⟩
      exact ⟨⟨⟨fun x hx => hcross x hx k (List.mem_cons_self _ _), hR⟩, hl⟩, hr⟩

end RBTreeSpec

namespace RBTreeSpec

theorem toList_node (i : Nat) (c : Color) (k v : Nat) (p : Option Nat) (l r : Tree) :
    toList (.node i c k v p l r) = toList l ++ (k, v) :: toList r := rfl

theorem bst_node_parts (i : Nat) (c : Color) (k v : Nat) (p : Option Nat) (l r : Tree)
    (h : bst (.node i c k v p l r) = true) :
    (∀ x ∈ keysList l, x < k) ∧ (∀ x ∈ keysList r, k < x) ∧ bst l = true ∧ bst r = true := by
  simp only [bst, Bool.and_eq_true] at h
  obtain ⟨⟨⟨hL, hR⟩, hl⟩, hr⟩ := h
  refine ⟨?_, ?_, hl, hr⟩
  · have := (allKeys_iff l _).1 hL
    simpa using this
  · have := (allKeys_iff r _).1 hR
    simpa using this

theorem find_eq_lookup (t : Tree) (k : Nat) (h : bst t = true) :
    try_find_key t k = lookupKey k (toList t) := by
  induction t with
  | nil => rfl
  | node i c k0 v p l r ihl ihr =>
    obtain ⟨hL, hR, hl, hr⟩ := bst_node_parts i c k0 v p l r h
    rw [toList_node, lookupKey_append]
    simp only [try_find_key]
    by_cases h1 : k < k0
    · rw [if_pos h1, ihl hl]
      split_ifs with h2
      · rfl
      · rw [Option.not_isSome_iff_eq_none] at h2
        rw [h2, lookupKey_cons, if_neg (by omega)]
        exact (lookupKey_eq_none _ _ fun p2 hp2 => by
          have := hR p2.1 (List.mem_map_of_mem Prod.fst hp2)
          omega).symm
    · rw [if_neg h1]
      have hlnone : lookupKey k (toList l) = none :=
        lookupKey_eq_none _ _ fun p2 hp2 => by
          have := hL p2.1 (List.mem_map_of_mem Prod.fst hp2)
          omega
      by_cases h2 : k > k0
      · rw [if_pos h2, ihr hr, hlnone]
        simp only [Option.isSome_none, Bool.false_eq_true, if_false]
        rw [lookupKey_cons, if_neg (by omega)]
      · rw [if_neg h2, hlnone]
        simp only [Option.isSome_none, Bool.false_eq_true, if_false]
        have : k = k0 := by omega
        rw [lookupKey_cons, if_pos this]

theorem try_insert_spec (t : Tree) :
    ∀ (parent : Option Nat) (k v : Nat) (au : Bool) (s f : Nat), bst t = true →
    toList (try_insert_key_val parent t k v au s f).tree = (insList k v au (toList t)).1 ∧
    (try_insert_key_val parent t k v au s f).result = (insList k v au (toList t)).2 ∧
    (try_insert_key_val parent t k v au s f).msize =
      (if (insList k v au (toList t)).2 = Result.Inserted then s + 1 else s) := by
  induction t with
  | nil =>
    intro parent k v au s f _
    simp [try_insert_key_val, insList, toList]
  | node i c k0 v0 p l r ihl ihr =>
    intro parent k v au s f h
    obtain ⟨hL, hR, hl, hr⟩ := bst_node_parts i c k0 v0 p l r h
    simp only [try_insert_key_val]
    by_cases h1 : k < k0
    · rw [if_pos h1]
      obtain ⟨ih1, ih2, ih3⟩ := ihl (some i) k v au s f hl
      rw [toList_node, insList_append_lt k v k0 v0 au (toList l) (toList r) h1]
      refine ⟨?_, ?_, ?_⟩
      · split_ifs with hres
        · rw [toList_insert_rebalance, toList_node, ih1]
        · rw [toList_node, ih1]
      · exact ih2
      · simpa using ih3
    · rw [if_neg h1]
      by_cases h2 : k > k0
      · rw [if_pos h2]
        obtain ⟨ih1, ih2, ih3⟩ := ihr (some i) k v au s f hr
        have hset : ∀ p2 ∈ toList l ++ [(k0, v0)], p2.1 < k := by
          intro p2 hp2
          rcases List.mem_append.1 hp2 with hp2 | hp2
          · have := hL p2.1 (List.mem_map_of_mem Prod.fst hp2)
            omega
          · simp only [List.mem_singleton] at hp2
            subst hp2
            omega
        rw [toList_node,
          show toList l ++ (k0, v0) :: toList r = (toList l ++ [(k0, v0)]) ++ toList r by simp,
          insList_append_gt k v au (toList l ++ [(k0, v0)]) (toList r) hset]
        refine ⟨?_, ?_, ?_⟩
        · split_ifs with hres
          · rw [toList_insert_rebalance, toList_node, ih1]
            simp
          · rw [toList_node, ih1]
            simp
        · exact ih2
        · simpa using ih3
      · rw [if_neg h2]
        have hk : k = k0 := by omega
        subst hk
        have hlnone : ∀ p2 ∈ toList l, p2.1 < k := fun p2 hp2 => by
          have := hL p2.1 (List.mem_map_of_mem Prod.fst hp2)
          omega
        rw [toList_node, insList_append_gt k v au (toList l) ((k, v0) :: toList r) hlnone]
        simp only [insList, lt_irrefl, if_false, gt_iff_lt]
        cases au <;> simp [toList_node]
end RBTreeSpec

namespace RBTreeSpec

theorem toList_ne_nil (t : Tree) (h : t ≠ .nil) : toList t ≠ [] := by
  cases t with
  | nil => exact absurd rfl h
  | node i c k v p l r => simp [toList]

theorem getLast_decomp (L : List (Nat × Nat)) (a : Nat × Nat) (h : L.getLast? = some a) :
    L = L.dropLast ++ [a] := by
  induction L with
  | nil => simp at h
  | cons q rest ih =>
    cases rest with
    | nil =>
      simp only [List.getLast?_singleton, Option.some.injEq] at h
      subst h
      simp
    | cons q2 rest2 =>
      rw [List.getLast?_cons_cons] at h
      rw [List.dropLast_cons_of_ne_nil (by simp)]
      rw [List.cons_append]
      rw [← ih h]

theorem find_max_getLast (t : Tree) (h : t ≠ .nil) :
    (toList t).getLast? = some ((find_max t).keyD, (find_max t).valueD) := by
  induction t with
  | nil => exact absurd rfl h
  | node i c k v p l r ihl ihr =>
    cases r with
    | nil =>
      simp [find_max, Tree.keyD, Tree.valueD, toList, List.getLast?_concat]
    | node ri rc rk rv rp rl rr =>
      have hr : (Tree.node ri rc rk rv rp rl rr) ≠ Tree.nil := by simp
      rw [show find_max (.node i c k v p l (.node ri rc rk rv rp rl rr)) =
            find_max (.node ri rc rk rv rp rl rr) from rfl]
      rw [toList_node,
        show (k, v) :: toList (.node ri rc rk rv rp rl rr) =
          [(k, v)] ++ toList (.node ri rc rk rv rp rl rr) from rfl,
        ← List.append_assoc]
      rw [List.getLast?_append_of_ne_nil _ (toList_ne_nil _ hr)]
      exact ihr hr

end RBTreeSpec

namespace RBTreeSpec

theorem try_remove_key_one_child (i : Nat) (c : Color) (k v : Nat) (p : Option Nat)
    (l r : Tree) (d0 : Bool) (s : Nat) (hlr : l = .nil ∨ r = .nil) :
    try_remove_key (.node i c k v p l r) d0 k s =
      ⟨(if c = Color.Red then (if l = .nil then r else l)
        else if (if l = .nil then r else l).isRed
          then (if l = .nil then r else l).setColor Color.Black
          else (if l = .nil then r else l)).setParent p,
       (if c = Color.Red then true
        else if (if l = .nil then r else l).isRed then true else d0),
       some v, s - 1⟩ := by
  simp only [try_remove_key, if_pos rfl, if_pos hlr]
  split_ifs <;> rfl

theorem try_remove_key_two_children (i : Nat) (c : Color) (k v : Nat) (p : Option Nat)
    (l r : Tree) (d0 : Bool) (s : Nat) (hl : l ≠ .nil) (hr : r ≠ .nil) :
    try_remove_key (.node i c k v p l r) d0 k s =
      (let sk := (find_max l).keyD
       let sv := (find_max l).valueD
       let o := try_remove_key l d0 sk s
       let t2 := Tree.node i c sk sv p o.tree r
       let fin := if !o.is_done then remove_rebalance t2 false else (t2, o.is_done)
       ⟨fin.1, fin.2, some v, o.msize⟩) := by
  simp only [try_remove_key, if_pos rfl, if_neg (by simp [hl, hr] : ¬ (l = Tree.nil ∨ r = Tree.nil))]
  simp

theorem try_remove_key_descend_right (i : Nat) (c : Color) (k v : Nat) (p : Option Nat)
    (l r : Tree) (d0 : Bool) (key s : Nat) (hk : k < key) :
    try_remove_key (.node i c k v p l r) d0 key s =
      (let o := try_remove_key r d0 key s
       let t2 := Tree.node i c k v p l o.tree
       let fin := if !o.is_done then remove_rebalance t2 true else (t2, o.is_done)
       ⟨fin.1, fin.2, o.removed, o.msize⟩) := by
  simp only [try_remove_key, if_neg (by omega : ¬ k = key), if_pos hk]

theorem try_remove_key_descend_left (i : Nat) (c : Color) (k v : Nat) (p : Option Nat)
    (l r : Tree) (d0 : Bool) (key s : Nat) (hk : key < k) :
    try_remove_key (.node i c k v p l r) d0 key s =
      (let o := try_remove_key l d0 key s
       let t2 := Tree.node i c k v p o.tree r
       let fin := if !o.is_done then remove_rebalance t2 false else (t2, o.is_done)
       ⟨fin.1, fin.2, o.removed, o.msize⟩) := by
  simp only [try_remove_key, if_neg (by omega : ¬ k = key), if_neg (by omega : ¬ k < key)]

theorem toList_fin (t2 : Tree) (d b : Bool) :
    toList (if !b then remove_rebalance t2 d else (t2, b)).1 = toList t2 := by
  split_ifs <;> simp [toList_remove_rebalance]

end RBTreeSpec

namespace RBTreeSpec

theorem try_remove_spec (t : Tree) :
    ∀ (k s : Nat), bst t = true →
    (try_remove_key t false k s).removed = lookupKey k (toList t) ∧
    toList (try_remove_key t false k s).tree = eraseKey k (toList t) ∧
    (try_remove_key t false k s).msize =
      (if (lookupKey k (toList t)).isSome then s - 1 else s) := by
  induction t with
  | nil =>
    intro k s _
    simp [try_remove_key, lookupKey, eraseKey, toList]
  | node i c k0 v0 p l r ihl ihr =>
    intro k s h
    obtain ⟨hL, hR, hl, hr⟩ := bst_node_parts i c k0 v0 p l r h
    rcases Nat.lt_trichotomy k k0 with hlt | heq | hgt
    · -- k < k0: the removal descends left
      have hleft_eq : lookupKey k (toList l ++ (k0, v0) :: toList r) = lookupKey k (toList l) := by
        rw [lookupKey_append]
        split_ifs with h2
        · rfl
        · rw [Option.not_isSome_iff_eq_none] at h2
          rw [h2, lookupKey_cons, if_neg (by omega)]
          exact lookupKey_eq_none k (toList r) fun p2 hp2 => by
            have := hR p2.1 (List.mem_map_of_mem Prod.fst hp2)
            omega
      have herase_eq : eraseKey k (toList l ++ (k0, v0) :: toList r) =
          eraseKey k (toList l) ++ (k0, v0) :: toList r := by
        rw [eraseKey_append]
        split_ifs with h2
        · rfl
        · rw [Option.not_isSome_iff_eq_none] at h2
          rw [eraseKey_of_none _ _ h2, eraseKey_cons, if_neg (by omega),
            eraseKey_of_none _ _ (lookupKey_eq_none k (toList r) fun p2 hp2 => by
              have := hR p2.1 (List.mem_map_of_mem Prod.fst hp2)
              omega)]
      rw [try_remove_key_descend_left i c k0 v0 p l r false k s hlt]
      obtain ⟨ih1, ih2, ih3⟩ := ihl k s hl
      refine ⟨?_, ?_, ?_⟩
      · rw [toList_node, hleft_eq]
        exact ih1
      · rw [toList_node, herase_eq]
        show toList (if !(try_remove_key l false k s).is_done then
            remove_rebalance (Tree.node i c k0 v0 p (try_remove_key l false k s).tree r) false
          else (Tree.node i c k0 v0 p (try_remove_key l false k s).tree r,
            (try_remove_key l false k s).is_done)).1 = _
        rw [toList_fin, toList_node, ih2]
      · rw [toList_node, hleft_eq]
        exact ih3
    · -- k = k0: the key is at this node
      subst heq
      have hlnone : lookupKey k (toList l) = none :=
        lookupKey_eq_none k (toList l) fun p2 hp2 => by
          have := hL p2.1 (List.mem_map_of_mem Prod.fst hp2)
          omega
      have hfound : lookupKey k (toList l ++ (k, v0) :: toList r) = some v0 := by
        rw [lookupKey_append, hlnone]
        simp only [Option.isSome_none, Bool.false_eq_true, if_false]
        rw [lookupKey_cons, if_pos rfl]
      have herase : eraseKey k (toList l ++ (k, v0) :: toList r) = toList l ++ toList r := by
        rw [eraseKey_append, hlnone]
        simp only [Option.isSome_none, Bool.false_eq_true, if_false]
        rw [eraseKey_cons, if_pos rfl]
      by_cases hlr : l = Tree.nil ∨ r = Tree.nil
      · rw [try_remove_key_one_child i c k v0 p l r false s hlr]
        refine ⟨?_, ?_, ?_⟩
        · show some v0 = _
          rw [toList_node, hfound]
        · show toList ((if c = Color.Red then (if l = Tree.nil then r else l)
              else if (if l = Tree.nil then r else l).isRed
                then (if l = Tree.nil then r else l).setColor Color.Black
                else (if l = Tree.nil then r else l)).setParent p) = _
          rw [toList_node, herase, toList_setParent]
          have hch : toList (if c = Color.Red then (if l = Tree.nil then r else l)
              else if (if l = Tree.nil then r else l).isRed
                then (if l = Tree.nil then r else l).setColor Color.Black
                else (if l = Tree.nil then r else l)) = toList (if l = Tree.nil then r else l) := by
            split_ifs <;> simp [toList_setColor]
          rw [hch]
          rcases hlr with hnil | hnil
          · subst hnil
            simp [toList]
          · subst hnil
            split_ifs with h3 <;> simp [toList, h3]
        · show s - 1 = _
          rw [toList_node, hfound]
          simp
      · push_neg at hlr
        obtain ⟨hlnil, hrnil⟩ := hlr
        rw [try_remove_key_two_children i c k v0 p l r false s hlnil hrnil]
        have hsl : List.Sorted (· < ·) ((toList l).map Prod.fst) := by
          have := (bst_iff_sorted l).1 hl
          simpa [keysList] using this
        have hglast := find_max_getLast l hlnil
        obtain ⟨ih1, ih2, ih3⟩ := ihl (find_max l).keyD s hl
        have hlook : lookupKey (find_max l).keyD (toList l) = some (find_max l).valueD :=
          lookup_getLast _ _ _ hsl hglast
        have herasel : eraseKey (find_max l).keyD (toList l) = (toList l).dropLast :=
          erase_getLast _ _ _ hsl hglast
        refine ⟨?_, ?_, ?_⟩
        · show some v0 = _
          rw [toList_node, hfound]
        · show toList (if !(try_remove_key l false (find_max l).keyD s).is_done then
              remove_rebalance (Tree.node i c (find_max l).keyD (find_max l).valueD p
                (try_remove_key l false (find_max l).keyD s).tree r) false
            else (Tree.node i c (find_max l).keyD (find_max l).valueD p
              (try_remove_key l false (find_max l).keyD s).tree r,
              (try_remove_key l false (find_max l).keyD s).is_done)).1 = _
          rw [toList_fin, toList_node, ih2, herasel, toList_node, herase]
          conv_rhs => rw [getLast_decomp (toList l) _ hglast]
          simp
        · show (try_remove_key l false (find_max l).keyD s).msize = _
          rw [ih3, hlook, toList_node, hfound]
          simp
    · -- k0 < k: the removal descends right
      have hln : lookupKey k (toList l) = none :=
        lookupKey_eq_none k (toList l) fun p2 hp2 => by
          have := hL p2.1 (List.mem_map_of_mem Prod.fst hp2)
          omega
      have hleft_eq : lookupKey k (toList l ++ (k0, v0) :: toList r) = lookupKey k (toList r) := by
        rw [lookupKey_append, hln]
        simp only [Option.isSome_none, Bool.false_eq_true, if_false]
        rw [lookupKey_cons, if_neg (by omega)]
      have herase_eq : eraseKey k (toList l ++ (k0, v0) :: toList r) =
          toList l ++ (k0, v0) :: eraseKey k (toList r) := by
        rw [eraseKey_append, hln]
        simp only [Option.isSome_none, Bool.false_eq_true, if_false]
        rw [eraseKey_cons, if_neg (by omega)]
      rw [try_remove_key_descend_right i c k0 v0 p l r false k s hgt]
      obtain ⟨ih1, ih2, ih3⟩ := ihr k s hr
      refine ⟨?_, ?_, ?_⟩
      · rw [toList_node, hleft_eq]
        exact ih1
      · rw [toList_node, herase_eq]
        show toList (if !(try_remove_key r false k s).is_done then
            remove_rebalance (Tree.node i c k0 v0 p l (try_remove_key r false k s).tree) true
          else (Tree.node i c k0 v0 p l (try_remove_key r false k s).tree,
            (try_remove_key r false k s).is_done)).1 = _
        rw [toList_fin, toList_node, ih2]
      · rw [toList_node, hleft_eq]
        exact ih3

end RBTreeSpec

namespace RBTreeSpec

theorem bst_setColor (t : Tree) (c : Color) : bst (t.setColor c) = bst t := by
  cases t <;> rfl

theorem try_find_setColor (t : Tree) (c : Color) (k : Nat) :
    try_find_key (t.setColor c) k = try_find_key t k := by
  cases t <;> rfl

theorem sorted_of_sublist (A B : List (Nat × Nat)) (h : List.Sublist A B)
    (hs : List.Sorted (· < ·) (B.map Prod.fst)) :
    List.Sorted (· < ·) (A.map Prod.fst) :=
  List.Pairwise.sublist (h.map Prod.fst) hs

theorem bst_try_insert (t : Tree) (parent : Option Nat) (k v : Nat) (au : Bool)
    (s f : Nat) (h : bst t = true) :
    bst (try_insert_key_val parent t k v au s f).tree = true := by
  obtain ⟨h1, _, _⟩ := try_insert_spec t parent k v au s f h
  rw [bst_iff_sorted]
  show List.Sorted (· < ·) (keysList (try_insert_key_val parent t k v au s f).tree)
  rw [keysList, h1]
  exact insList_sorted k v au (toList t) (by
    have := (bst_iff_sorted t).1 h
    simpa [keysList] using this)

theorem bst_try_remove (t : Tree) (k s : Nat) (h : bst t = true) :
    bst (try_remove_key t false k s).tree = true := by
  obtain ⟨_, h2, _⟩ := try_remove_spec t k s h
  rw [bst_iff_sorted]
  show List.Sorted (· < ·) (keysList (try_remove_key t false k s).tree)
  rw [keysList, h2]
  exact sorted_of_sublist _ _ (eraseKey_sublist k (toList t)) (by
    have := (bst_iff_sorted t).1 h
    simpa [keysList] using this)

theorem try_remove_absent (t : Tree) :
    ∀ (k s : Nat) (d0 : Bool), try_find_key t k = none →
      try_remove_key t d0 k s = ⟨t, true, none, s⟩ := by
  induction t with
  | nil =>
    intro k s d0 _
    rfl
  | node i c k0 v0 p l r ihl ihr =>
    intro k s d0 hf
    simp only [try_find_key] at hf
    by_cases h1 : k < k0
    · rw [if_pos h1] at hf
      rw [try_remove_key_descend_left i c k0 v0 p l r d0 k s h1, ihl k s d0 hf]
      rfl
    · rw [if_neg h1] at hf
      by_cases h2 : k > k0
      · rw [if_pos h2] at hf
        rw [try_remove_key_descend_right i c k0 v0 p l r d0 k s h2, ihr k s d0 hf]
        rfl
      · rw [if_neg h2] at hf
        exact absurd hf (by simp)

theorem try_insert_found_strict (t : Tree) :
    ∀ (parent : Option Nat) (k v w s f : Nat), try_find_key t k = some w →
      try_insert_key_val parent t k v false s f = ⟨t, .Failed, s, f⟩ := by
  induction t with
  | nil =>
    intro parent k v w s f hf
    exact absurd hf (by simp [try_find_key])
  | node i c k0 v0 p l r ihl ihr =>
    intro parent k v w s f hf
    simp only [try_find_key] at hf
    simp only [try_insert_key_val]
    by_cases h1 : k < k0
    · rw [if_pos h1] at hf
      rw [if_pos h1, ihl (some i) k v w s f hf]
      rfl
    · rw [if_neg h1] at hf
      by_cases h2 : k > k0
      · rw [if_pos h2] at hf
        rw [if_neg h1, if_pos h2, ihr (some i) k v w s f hf]
        rfl
      · rw [if_neg h2] at hf
        rw [if_neg h1, if_neg h2]
        rfl

theorem try_insert_found_upd (t : Tree) :
    ∀ (parent : Option Nat) (k v w s f : Nat), try_find_key t k = some w →
      try_insert_key_val parent t k v true s f = ⟨updValue t k v, .Updated, s, f⟩ := by
  induction t with
  | nil =>
    intro parent k v w s f hf
    exact absurd hf (by simp [try_find_key])
  | node i c k0 v0 p l r ihl ihr =>
    intro parent k v w s f hf
    simp only [try_find_key] at hf
    simp only [try_insert_key_val, updValue]
    by_cases h1 : k < k0
    · rw [if_pos h1] at hf
      rw [if_pos h1, if_pos h1, ihl (some i) k v w s f hf]
      rfl
    · rw [if_neg h1] at hf
      by_cases h2 : k > k0
      · rw [if_pos h2] at hf
        rw [if_neg h1, if_neg h1, if_pos h2, if_pos h2, ihr (some i) k v w s f hf]
        rfl
      · rw [if_neg h2] at hf
        rw [if_neg h1, if_neg h1, if_neg h2, if_neg h2]
        rfl

theorem strip_updValue (t : Tree) (k v : Nat) :
    stripValues (updValue t k v) = stripValues t := by
  induction t with
  | nil => rfl
  | node i c k0 v0 p l r ihl ihr =>
    simp only [updValue]
    split_ifs <;> simp [stripValues, ihl, ihr]

theorem find_updValue (t : Tree) :
    ∀ (k v w : Nat), try_find_key t k = some w →
      try_find_key (updValue t k v) k = some v := by
  induction t with
  | nil =>
    intro k v w hf
    exact absurd hf (by simp [try_find_key])
  | node i c k0 v0 p l r ihl ihr =>
    intro k v w hf
    simp only [try_find_key] at hf
    simp only [updValue]
    by_cases h1 : k < k0
    · rw [if_pos h1] at hf
      rw [if_pos h1]
      simp only [try_find_key, if_pos h1]
      exact ihl k v w hf
    · rw [if_neg h1] at hf
      by_cases h2 : k > k0
      · rw [if_pos h2] at hf
        rw [if_neg h1, if_pos h2]
        simp only [try_find_key, if_neg h1, if_pos h2]
        exact ihr k v w hf
      · rw [if_neg h1, if_neg h2]
        simp [try_find_key, h1, h2]

end RBTreeSpec

namespace RBTreeSpec

theorem traceList_true (f : Nat → Nat → Bool) (L : List (Nat × Nat))
    (h : (traceList f L).2 = true) : (traceList f L).1 = L := by
  induction L with
  | nil => rfl
  | cons q rest ih =>
    obtain ⟨k, v⟩ := q
    simp only [traceList] at h ⊢
    by_cases hf : f k v
    · simp only [hf, if_true] at h ⊢
      simp [ih h]
    · simp [hf] at h

theorem traceList_all (f : Nat → Nat → Bool) (L : List (Nat × Nat))
    (h : ∀ p ∈ L, f p.1 p.2 = true) : traceList f L = (L, true) := by
  induction L with
  | nil => rfl
  | cons q rest ih =>
    obtain ⟨k, v⟩ := q
    have hk := h (k, v) (List.mem_cons_self _ _)
    simp only [traceList, hk, if_true]
    rw [ih fun p hp => h p (List.mem_cons_of_mem _ hp)]

theorem traceList_append (f : Nat → Nat → Bool) (A B : List (Nat × Nat)) :
    traceList f (A ++ B) =
      if (traceList f A).2 then ((traceList f A).1 ++ (traceList f B).1, (traceList f B).2)
      else traceList f A := by
  induction A with
  | nil => simp [traceList]
  | cons q rest ih =>
    obtain ⟨k, v⟩ := q
    simp only [List.cons_append, traceList]
    by_cases hf : f k v
    · simp only [hf, if_true]
      simp only [List.append_eq]
      rw [ih]
      by_cases h2 : (traceList f rest).2 = true <;> simp [traceList, hf, h2]
    · simp [hf]

theorem traceList_decomp (f : Nat → Nat → Bool) (L : List (Nat × Nat)) :
    ∃ rest, L = (traceList f L).1 ++ rest := by
  induction L with
  | nil => exact ⟨[], rfl⟩
  | cons q rest ih =>
    obtain ⟨k, v⟩ := q
    by_cases hf : f k v
    · obtain ⟨r0, hr0⟩ := ih
      refine ⟨r0, ?_⟩
      simp only [traceList, hf, if_true]
      simpa using hr0
    · exact ⟨rest, by simp [traceList, hf]⟩

theorem traceList_stop (f : Nat → Nat → Bool) (L : List (Nat × Nat))
    (h : (traceList f L).2 = false) :
    ∃ V0 kv, (traceList f L).1 = V0 ++ [kv] ∧ f kv.1 kv.2 = false ∧
      ∀ q ∈ V0, f q.1 q.2 = true := by
  induction L with
  | nil => simp [traceList] at h
  | cons q rest ih =>
    obtain ⟨k, v⟩ := q
    by_cases hf : f k v
    · simp only [traceList, hf, if_true] at h ⊢
      obtain ⟨V0, kv, h1, h2, h3⟩ := ih h
      refine ⟨(k, v) :: V0, kv, by simp [h1], h2, ?_⟩
      intro p hp
      rcases List.mem_cons.1 hp with rfl | hp
      · exact hf
      · exact h3 p hp
    · refine ⟨[], (k, v), by simp [traceList, hf], by simpa using hf, by simp⟩

theorem visitTrace_eq (t : Tree) (f : Nat → Nat → Bool) :
    visitTrace t f = traceList f (toList t) := by
  induction t with
  | nil => rfl
  | node i c k v p l r ihl ihr =>
    rw [show visitTrace (.node i c k v p l r) f =
        (let o := visitTrace l f
         if !o.2 then (o.1, false)
         else if !f k v then (o.1 ++ [(k, v)], false)
         else
           let o2 := visitTrace r f
           (o.1 ++ (k, v) :: o2.1, o2.2)) from rfl]
    rw [toList_node, traceList_append, ihl, ihr]
    rcases htl : traceList f (toList l) with ⟨V, b⟩
    cases b
    · simp
    · by_cases hf : f k v <;> simp [traceList, hf]

theorem visitTrace_snd (t : Tree) (f : Nat → Nat → Bool) :
    (visitTrace t f).2 = visit_inorder t f := by
  induction t with
  | nil => rfl
  | node i c k v p l r ihl ihr =>
    simp only [visitTrace, visit_inorder]
    rcases hl2 : (visitTrace l f).2 with _ | _ <;> rw [hl2] at ihl <;>
      rw [← ihl] <;> by_cases hf : f k v <;> simp [hf, ihr]

theorem find_eq_nodeAt (t : Tree) (k : Nat) :
    try_find_key t k = (nodeAt t k).valueOpt := by
  induction t with
  | nil => rfl
  | node i c k0 v0 p l r ihl ihr =>
    simp only [try_find_key, nodeAt]
    split_ifs <;> simp [ihl, ihr, Tree.valueOpt]

theorem bst_nodeAt (t : Tree) (k : Nat) (h : bst t = true) : bst (nodeAt t k) = true := by
  induction t with
  | nil => exact h
  | node i c k0 v0 p l r ihl ihr =>
    obtain ⟨hL, hR, hl, hr⟩ := bst_node_parts i c k0 v0 p l r h
    simp only [nodeAt]
    split_ifs
    · exact ihl hl
    · exact ihr hr
    · exact h

theorem nodeAt_between (t : Tree) (k : Nat) :
    ∃ pre suf, toList t = pre ++ toList (nodeAt t k) ++ suf := by
  induction t with
  | nil => exact ⟨[], [], by simp [toList, nodeAt]⟩
  | node i c k0 v0 p l r ihl ihr =>
    simp only [nodeAt]
    split_ifs
    · obtain ⟨pre, suf, hps⟩ := ihl
      refine ⟨pre, suf ++ (k0, v0) :: toList r, ?_⟩
      rw [toList_node, hps]
      simp
    · obtain ⟨pre, suf, hps⟩ := ihr
      refine ⟨toList l ++ (k0, v0) :: pre, suf, ?_⟩
      rw [toList_node, hps]
      simp
    · exact ⟨[], [], by simp [toList_node]⟩

end RBTreeSpec

namespace RBTreeSpec

theorem find_root_recolor (x : Tree) (P : Prop) [Decidable P] (k : Nat) :
    try_find_key (if P then x.setColor Color.Black else x) k = try_find_key x k := by
  split_ifs <;> simp [try_find_setColor]

theorem toList_root_recolor (x : Tree) (P : Prop) [Decidable P] :
    toList (if P then x.setColor Color.Black else x) = toList x := by
  split_ifs <;> simp [toList_setColor]

theorem bst_root_recolor (x : Tree) (P : Prop) [Decidable P] :
    bst (if P then x.setColor Color.Black else x) = bst x := by
  split_ifs <;> simp [bst_setColor]

theorem sorted_keys_of_bst (t : Tree) (h : bst t = true) :
    List.Sorted (· < ·) ((toList t).map Prod.fst) := by
  have := (bst_iff_sorted t).1 h
  simpa [keysList] using this

theorem bst_insert_wrapper (t : RBTree) (k v : Nat) (h : bst t.m_root = true) :
    bst ((t.insert k v).1.m_root) = true := by
  show bst (if _ = Result.Inserted then _ else _) = true
  rw [bst_root_recolor]
  exact bst_try_insert t.m_root none k v false t.m_size t.m_fresh h

theorem bst_insert_or_update_wrapper (t : RBTree) (k v : Nat) (h : bst t.m_root = true) :
    bst ((t.insert_or_update k v).1.m_root) = true := by
  show bst (if _ = Result.Inserted then _ else _) = true
  rw [bst_root_recolor]
  exact bst_try_insert t.m_root none k v true t.m_size t.m_fresh h

theorem bst_remove_wrapper (t : RBTree) (k : Nat) (h : bst t.m_root = true) :
    bst ((t.remove k).1.m_root) = true := by
  show bst (if _ then _ else _) = true
  rw [bst_root_recolor]
  exact bst_try_remove t.m_root k t.m_size h

theorem toList_remove_wrapper (t : RBTree) (k : Nat) :
    toList (t.remove k).1.m_root = toList (try_remove_key t.m_root false k t.m_size).tree := by
  show toList (if _ then _ else _) = _
  rw [toList_root_recolor]

end RBTreeSpec

namespace RBTreeSpec

end RBTreeSpec

namespace RBTreeSpec

theorem bst_buildTree_aux (ops : List (Bool × Nat × Nat)) :
    ∀ (t : RBTree), bst t.m_root = true →
      bst ((ops.foldl
        (fun t op =>
          if op.1 then (t.insert_or_update op.2.1 op.2.2).1 else (t.insert op.2.1 op.2.2).1)
        t).m_root) = true := by
  induction ops with
  | nil => exact fun t h => h
  | cons op rest ih =>
    intro t h
    rw [List.foldl_cons]
    refine ih _ ?_
    by_cases hop : op.1 = true
    · simp only [hop, if_true]
      exact bst_insert_or_update_wrapper t op.2.1 op.2.2 h
    · simp only [hop, if_false]
      exact bst_insert_wrapper t op.2.1 op.2.2 h

theorem bst_buildTree (ops : List (Bool × Nat × Nat)) : bst (buildTree ops).m_root = true :=
  bst_buildTree_aux ops RBTree.empty rfl

end RBTreeSpec

namespace RBTreeSpec

theorem badflag_eq (b : Bool) (x k : Nat) :
    (!b && decide (x ≥ k)) = !(b || decide (x < k)) := by
  cases b <;> by_cases h : x < k <;> simp [h] <;> omega

set_option maxHeartbeats 1000000 in
theorem validate_rbt_eq (t : Tree) :
    validate_red_black_tree t =
      (if (localOrd t && noRedRed t && (bheight t).isSome) = true
       then (true, (bheight t).getD 0 + 1) else (false, 0)) := by
  induction t with
  | nil => simp [validate_red_black_tree, localOrd, noRedRed, bheight]
  | node i c k v p l r ihl ihr =>
    simp only [validate_red_black_tree, localOrd, noRedRed, bheight]
    rw [ihl, ihr, badflag_eq (l.isNil) (l.keyD) k]
    have hbr2 : (!r.isNil && decide (r.keyD ≤ k)) = !(r.isNil || decide (k < r.keyD)) := by
      cases hh : r.isNil <;> by_cases h2 : k < r.keyD <;> simp [h2] <;> omega
    rw [hbr2]
    rcases hbl : bheight l with _ | bl <;> rcases hbr : bheight r with _ | br <;>
      simp only [Option.isSome_none, Option.isSome_some, Bool.and_false, Bool.and_true,
        Option.getD_some]
    · by_cases hred : (decide (c = Color.Red) && (l.isRed || r.isRed)) = true <;>
        simp [hred] <;> split_ifs <;> simp_all
    · by_cases hred : (decide (c = Color.Red) && (l.isRed || r.isRed)) = true <;>
        simp [hred] <;> split_ifs <;> simp_all
    · by_cases hred : (decide (c = Color.Red) && (l.isRed || r.isRed)) = true <;>
        simp [hred] <;> split_ifs <;> simp_all
    · by_cases hred : (decide (c = Color.Red) && (l.isRed || r.isRed)) = true
      · rw [if_pos hred]
        simp only [Bool.and_eq_true, Bool.or_eq_true, decide_eq_true_eq] at hred
        obtain ⟨hc, hlr2⟩ := hred
        rcases hlr2 with h2 | h2 <;> simp [hc, h2]
      · rw [if_neg hred]
        have hred2 : (decide (c = Color.Red) && (l.isRed || r.isRed)) = false := by
          simpa using hred
        have hnn : (if c = Color.Red then !l.isRed && !r.isRed else true) = true := by
          rcases c <;> simp_all
        by_cases hCL : (localOrd l && noRedRed l) = true
        · obtain ⟨hCL1, hCL2⟩ : localOrd l = true ∧ noRedRed l = true := by simpa using hCL
          by_cases hCR : (localOrd r && noRedRed r) = true
          · obtain ⟨hCR1, hCR2⟩ : localOrd r = true ∧ noRedRed r = true := by simpa using hCR
            rw [if_pos hCL, if_pos hCR]
            by_cases hbe : bl = br
            · subst hbe
              by_cases hlo : (l.isNil || decide (l.keyD < k)) = true
              · by_cases hro : (r.isNil || decide (k < r.keyD)) = true
                · rw [if_neg (by simp [hlo, hro]), if_neg (by simp), if_pos (by simp)]
                  rcases c <;> simp_all
                · rw [if_pos (by simp [hro]), if_neg (by simp [hro])]
              · rw [if_pos (by simp [hlo]), if_neg (by simp [hlo])]
            · split_ifs <;> simp_all
          · rw [if_neg hCR]
            have hone : (localOrd r = false) ∨ (noRedRed r = false) := by
              rcases hx : localOrd r <;> rcases hy : noRedRed r <;> simp_all
            rcases hone with hx | hx <;> split_ifs <;> simp_all
        · rw [if_neg hCL]
          have hone : (localOrd l = false) ∨ (noRedRed l = false) := by
            rcases hx : localOrd l <;> rcases hy : noRedRed l <;> simp_all
          rcases hone with hx | hx <;> split_ifs <;> simp_all

end RBTreeSpec

namespace RBTreeSpec

theorem validate_parents_eq_parentLinksOk (t : Tree) :
    ∀ e, validate_parents t e = parentLinksOk t e := by
  induction t with
  | nil => intro e; rfl
  | node i c k v p l r ihl ihr =>
    intro e
    simp only [validate_parents, parentLinksOk, ihl, ihr]

end RBTreeSpec

namespace RBTreeSpec

theorem subtreeAt_nil (p : List Bool) : subtreeAt .nil p = .nil := by
  cases p with
  | nil => rfl
  | cons d q => cases d <;> rfl

theorem subtreeAt_append (t : Tree) (p q : List Bool) :
    subtreeAt t (p ++ q) = subtreeAt (subtreeAt t p) q := by
  induction p generalizing t with
  | nil => simp [subtreeAt]
  | cons d p2 ih =>
    cases t with
    | nil => simp [subtreeAt_nil]
    | node i c k v pr l r => cases d <;> simp [subtreeAt, ih]

theorem minPath_all_false (t : Tree) : ∀ x ∈ minPath t, x = false := by
  induction t with
  | nil => simp [minPath]
  | node i c k v p l r ihl ihr =>
    cases l with
    | nil => simp [minPath]
    | node li lc lk lv lp ll lr =>
      intro x hx
      simp only [minPath, List.mem_cons] at hx
      rcases hx with rfl | hx
      · rfl
      · exact ihl x hx

theorem maxPath_all_true (t : Tree) : ∀ x ∈ maxPath t, x = true := by
  induction t with
  | nil => simp [maxPath]
  | node i c k v p l r ihl ihr =>
    cases r with
    | nil => simp [maxPath]
    | node ri rc rk rv rp rl rr =>
      intro x hx
      simp only [maxPath, List.mem_cons] at hx
      rcases hx with rfl | hx
      · rfl
      · exact ihr x hx

theorem subtreeAt_minPath (t : Tree) : subtreeAt t (minPath t) = find_min t := by
  induction t with
  | nil => rfl
  | node i c k v p l r ihl ihr =>
    cases l with
    | nil => rfl
    | node li lc lk lv lp ll lr => simp [minPath, find_min, subtreeAt, ihl]

theorem subtreeAt_maxPath (t : Tree) : subtreeAt t (maxPath t) = find_max t := by
  induction t with
  | nil => rfl
  | node i c k v p l r ihl ihr =>
    cases r with
    | nil => rfl
    | node ri rc rk rv rp rl rr => simp [maxPath, find_max, subtreeAt, ihr]

theorem find_min_shape (t : Tree) (h : t ≠ .nil) :
    find_min t ≠ .nil ∧ (find_min t).left = .nil := by
  induction t with
  | nil => exact absurd rfl h
  | node i c k v p l r ihl ihr =>
    cases l with
    | nil => exact ⟨by simp [find_min], rfl⟩
    | node li lc lk lv lp ll lr =>
      exact ihl (by simp)

theorem find_max_shape (t : Tree) (h : t ≠ .nil) :
    find_max t ≠ .nil ∧ (find_max t).right = .nil := by
  induction t with
  | nil => exact absurd rfl h
  | node i c k v p l r ihl ihr =>
    cases r with
    | nil => exact ⟨by simp [find_max], rfl⟩
    | node ri rc rk rv rp rl rr =>
      exact ihr (by simp)

theorem stripTrailing_decomp (d : Bool) (p : List Bool) :
    ∃ n, p = stripTrailing d p ++ List.replicate n d := by
  refine ⟨(p.reverse.takeWhile (fun x => decide (x = d))).length, ?_⟩
  have h1 : p.reverse.takeWhile (fun x => decide (x = d)) ++
      p.reverse.dropWhile (fun x => decide (x = d)) = p.reverse :=
    List.takeWhile_append_dropWhile (fun x => decide (x = d)) p.reverse
  have h2 : p.reverse.takeWhile (fun x => decide (x = d)) =
      List.replicate (p.reverse.takeWhile (fun x => decide (x = d))).length d := by
    apply List.eq_replicate_of_mem
    intro b hb
    have := List.mem_takeWhile_imp hb
    simpa using this
  conv_lhs => rw [← p.reverse_reverse, ← h1]
  rw [stripTrailing, List.reverse_append]
  rw [show (p.reverse.takeWhile (fun x => decide (x = d))).reverse =
      List.replicate (p.reverse.takeWhile (fun x => decide (x = d))).length d by
    rw [h2, List.reverse_replicate, List.length_replicate]]

theorem dropWhile_head_false (f : Bool → Bool) (l : List Bool) (x : Bool) (xs : List Bool)
    (h : l.dropWhile f = x :: xs) : f x = false := by
  induction l with
  | nil => simp at h
  | cons y ys ih =>
    rw [List.dropWhile_cons] at h
    split_ifs at h with hy
    · exact ih h
    · simp only [List.cons.injEq] at h
      obtain ⟨rfl, -⟩ := h
      simpa using hy

theorem stripTrailing_last (d : Bool) (p q : List Bool) (b : Bool)
    (h : stripTrailing d p = q ++ [b]) : b = !d := by
  have hrev : p.reverse.dropWhile (fun x => decide (x = d)) = b :: q.reverse := by
    have := congrArg List.reverse h
    rwa [stripTrailing, List.reverse_reverse, List.reverse_append] at this
  have hb := dropWhile_head_false (fun x => decide (x = d)) p.reverse b q.reverse hrev
  simp only [decide_eq_false_iff_not] at hb
  cases d <;> cases b <;> simp_all

theorem stripTrailing_concat (d b : Bool) (A R : List Bool) (hb : b ≠ d)
    (hR : ∀ x ∈ R, x = d) : stripTrailing d (A ++ b :: R) = A ++ [b] := by
  rw [stripTrailing]
  rw [show (A ++ b :: R).reverse = R.reverse ++ b :: A.reverse by simp]
  rw [List.dropWhile_append]
  have hR2 : R.reverse.dropWhile (fun x => decide (x = d)) = [] :=
    List.dropWhile_eq_nil_iff.2 (by
      intro x hx
      simpa using hR x (by simpa using hx))
  rw [hR2]
  simp only [List.isEmpty_nil, if_true]
  rw [List.dropWhile_cons, if_neg (by simpa using hb)]
  simp

theorem maxPath_replicate (n : Nat) :
    ∀ (t : Tree), subtreeAt t (List.replicate n true) ≠ .nil →
      (subtreeAt t (List.replicate n true)).right = .nil →
      maxPath t = List.replicate n true := by
  induction n with
  | zero =>
    intro t h1 h2
    cases t with
    | nil => exact absurd rfl h1
    | node i c k v p l r =>
      cases r with
      | nil => rfl
      | node ri rc rk rv rp rl rr => simp [subtreeAt, Tree.right] at h2
  | succ m ih =>
    intro t h1 h2
    rw [List.replicate_succ] at h1 h2 ⊢
    cases t with
    | nil =>
      rw [subtreeAt_nil] at h1
      exact absurd rfl h1
    | node i c k v p l r =>
      simp only [subtreeAt] at h1 h2
      cases r with
      | nil =>
        rw [subtreeAt_nil] at h1
        exact absurd rfl h1
      | node ri rc rk rv rp rl rr =>
        rw [show maxPath (.node i c k v p l (.node ri rc rk rv rp rl rr)) =
            true :: maxPath (.node ri rc rk rv rp rl rr) from rfl]
        rw [ih _ h1 h2]

end RBTreeSpec

namespace RBTreeSpec

theorem next_node_eq_min (t : Tree) (p : List Bool) (i : Nat) (c : Color) (k v : Nat)
    (pr : Option Nat) (l r : Tree) (hr : r ≠ .nil)
    (hsub : subtreeAt t p = .node i c k v pr l r) :
    next_node t p = some (p ++ true :: minPath r) := by
  rcases r with _ | ⟨ri, rc, rk, rv, rp, rl, rr⟩
  · exact absurd rfl hr
  · simp only [next_node, hsub]

theorem next_node_eq_climb (t : Tree) (p : List Bool) (i : Nat) (c : Color) (k v : Nat)
    (pr : Option Nat) (l : Tree)
    (hsub : subtreeAt t p = .node i c k v pr l .nil) :
    next_node t p =
      (if stripTrailing true p = [] then none else some (stripTrailing true p).dropLast) := by
  simp only [next_node, hsub]

theorem prev_node_eq_max (t : Tree) (p : List Bool) (i : Nat) (c : Color) (k v : Nat)
    (pr : Option Nat) (l r : Tree) (hl : l ≠ .nil)
    (hsub : subtreeAt t p = .node i c k v pr l r) :
    prev_node t p = some (p ++ false :: maxPath l) := by
  rcases l with _ | ⟨li, lc, lk, lv, lp, ll, lr⟩
  · exact absurd rfl hl
  · simp only [prev_node, hsub]

theorem prev_node_eq_climb (t : Tree) (p : List Bool) (i : Nat) (c : Color) (k v : Nat)
    (pr : Option Nat) (r : Tree)
    (hsub : subtreeAt t p = .node i c k v pr .nil r) :
    prev_node t p =
      (if stripTrailing false p = [] then none else some (stripTrailing false p).dropLast) := by
  simp only [prev_node, hsub]

theorem prev_next_node (t : Tree) (p : List Bool) (h : subtreeAt t p ≠ .nil) :
    iter_dec t (iter_inc t (some p)) = some p := by
  show iter_dec t (next_node t p) = some p
  rcases hsub : subtreeAt t p with _ | ⟨i, c, k, v, pr, l, r⟩
  · exact absurd hsub h
  rcases hr : r with _ | ⟨ri, rc, rk, rv, rp, rl, rr⟩
  · -- right child null: next climbs; the landing node has this position in
    -- its left subtree, and p is the max position of that subtree
    subst hr
    rw [next_node_eq_climb t p i c k v pr l hsub]
    obtain ⟨n, hdec⟩ := stripTrailing_decomp true p
    by_cases hq : stripTrailing true p = []
    · rw [if_pos hq]
      rw [hq, List.nil_append] at hdec
      have ht : t ≠ .nil := fun ht0 => h (by rw [ht0, subtreeAt_nil])
      have hmax : maxPath t = p := by
        rw [hdec]
        refine maxPath_replicate n t ?_ ?_
        · rw [← hdec, hsub]
          simp
        · rw [← hdec, hsub]
          rfl
      rcases t with _ | ⟨ti, tc, tk, tv, tp, tl, tr⟩
      · exact absurd rfl ht
      · show some (maxPath _) = some p
        rw [hmax]
    · rw [if_neg hq]
      obtain ⟨q0, b, hq0⟩ : ∃ q0 b, stripTrailing true p = q0 ++ [b] := by
        rcases List.eq_nil_or_concat (stripTrailing true p) with h0 | ⟨q0, b, h0⟩
        · exact absurd h0 hq
        · exact ⟨q0, b, by simpa [List.concat_eq_append] using h0⟩
      have hb : b = false := by simpa using stripTrailing_last true p q0 b hq0
      subst hb
      rw [hq0, List.dropLast_concat]
      show prev_node t q0 = some p
      rw [hq0] at hdec
      have hp_eq : p = q0 ++ false :: List.replicate n true := by
        rw [hdec]
        simp
      rcases hs0 : subtreeAt t q0 with _ | ⟨i2, c2, k2, v2, p2, l2, r2⟩
      · exfalso
        apply h
        rw [hp_eq, subtreeAt_append, hs0, subtreeAt_nil]
      have hl2 : l2 = subtreeAt t (q0 ++ [false]) := by
        rw [subtreeAt_append, hs0]
        simp [subtreeAt]
      have hsubl2 : subtreeAt l2 (List.replicate n true) = subtreeAt t p := by
        rw [hp_eq, subtreeAt_append, hs0]
        simp [subtreeAt]
      have hl2ne : l2 ≠ .nil := by
        intro h0
        apply h
        rw [← hsubl2, h0, subtreeAt_nil]
      rw [prev_node_eq_max t q0 i2 c2 k2 v2 p2 l2 r2 hl2ne hs0]
      have hmax2 : maxPath l2 = List.replicate n true := by
        refine maxPath_replicate n l2 ?_ ?_
        · rw [hsubl2]
          exact h
        · rw [hsubl2, hsub]
          rfl
      rw [hmax2, ← hp_eq]
  · -- right child exists: next is the min of the right subtree, whose left
    -- child is null, so prev climbs back over the all-left path
    rw [next_node_eq_min t p i c k v pr l r (by rw [hr]; simp) hsub]
    show prev_node t (p ++ true :: minPath r) = some p
    have hsub2 : subtreeAt t (p ++ true :: minPath r) = find_min r := by
      rw [subtreeAt_append, hsub]
      rw [show subtreeAt (Tree.node i c k v pr l r) (true :: minPath r) =
          subtreeAt r (minPath r) by simp [subtreeAt]]
      exact subtreeAt_minPath r
    obtain ⟨hfm_ne, hfm_left⟩ := find_min_shape r (by rw [hr]; simp)
    rcases hfm : find_min r with _ | ⟨i2, c2, k2, v2, p2, l2, r2⟩
    · exact absurd hfm hfm_ne
    have hl2 : l2 = .nil := by
      rw [hfm] at hfm_left
      exact hfm_left
    subst hl2
    rw [hfm] at hsub2
    rw [prev_node_eq_climb t (p ++ true :: minPath r) i2 c2 k2 v2 p2 r2 hsub2]
    have hstrip : stripTrailing false (p ++ true :: minPath r) = p ++ [true] :=
      stripTrailing_concat false true p (minPath r) (by simp) (minPath_all_false r)
    rw [hstrip, if_neg (by simp), List.dropLast_concat]

end RBTreeSpec

namespace RBTreeSpec

theorem sorted_all_le_getLast (L : List Nat) (m : Nat) (hs : List.Sorted (· < ·) L)
    (hl : L.getLast? = some m) : ∀ x ∈ L, x ≤ m := by
  induction L with
  | nil => simp
  | cons a rest ih =>
    intro x hx
    cases rest with
    | nil =>
      simp only [List.getLast?_singleton, Option.some.injEq] at hl
      simp only [List.mem_singleton] at hx
      omega
    | cons b rest2 =>
      rw [List.getLast?_cons_cons] at hl
      rw [List.sorted_cons] at hs
      rcases List.mem_cons.1 hx with rfl | hx2
      · have hm : m ∈ b :: rest2 := List.mem_of_mem_getLast? hl
        have := hs.1 m hm
        omega
      · exact ih hs.2 hl x hx2

end RBTreeSpec


namespace RBTreeSpec

/-- Claim C1 (code bug): the specification asserts that after every operation
of any insert / insert-or-update / remove sequence applied to the initially
empty tree, all six data-model invariants hold (BST order, no red node with a
red child, equal black-heights, black root, parent links matching structural
parents, cached size equal to the number of reachable nodes).  The code
violates this: after the six ascending insertions of `c1InsertOps` every
invariant holds, but the subsequent `remove(0)` of `c1FailingOps` drives
`remove_rebalance` through its red-sibling case — which recomputes the sibling
from the new subtree root produced by the rotation instead of from the old
parent — and leaves a tree with ill-defined black-heights, so invariant 3
fails and the code's own `validate()` assertion fires, while the BST order
and the cached size remain correct. -/
theorem c1_remove_breaks_invariants :
    rbInvariants (applyOps RBTree.empty c1InsertOps) = true ∧
    rbInvariants (applyOps RBTree.empty c1FailingOps) = false ∧
    bheight (applyOps RBTree.empty c1FailingOps).m_root = none ∧
    RBTree.validate_ok (applyOps RBTree.empty c1FailingOps) = false ∧
    bst (applyOps RBTree.empty c1FailingOps).m_root = true ∧
    (applyOps RBTree.empty c1FailingOps).m_size =
      countNodes (applyOps RBTree.empty c1FailingOps).m_root := by
  decide

/-- Claim C2 counterexample: a container whose tree is a single red node, with
consistent size and parent links, violates invariant 4 (the root, if present,
must be black) while satisfying invariants 1, 2, 3, 5 and the size
consistency, yet `validate` reports no failure — refuting the claim that
`validate` rejects every tree violating one of the five invariants. -/
theorem c2_red_root_passes_validate :
    rootBlackOk redRootTree.m_root = false ∧
    bst redRootTree.m_root = true ∧
    noRedRed redRootTree.m_root = true ∧
    (bheight redRootTree.m_root).isSome = true ∧
    parentLinksOk redRootTree.m_root none = true ∧
    redRootTree.m_size = countNodes redRootTree.m_root ∧
    RBTree.validate_ok redRootTree = true := by
  decide

/-- Claim C2 (amended): `validate` reports a failure exactly when one of the
following fails: invariant 2 (no red node with a red child), invariant 3
(well-defined black-heights), invariant 5 (parent links match structural
parents), the *local* key order of each node's immediate children (strictly
weaker than invariant 1), or the emptiness/size consistency.  It does not
check invariant 4 (see the counterexample: a red root passes), and it misses
BST-order violations that are not visible between a node and its immediate
children. -/
theorem c2_validate_checked_invariants (t : RBTree) :
    RBTree.validate_ok t =
      (localOrd t.m_root && noRedRed t.m_root && (bheight t.m_root).isSome &&
        parentLinksOk t.m_root none &&
        decide ((t.m_root = Tree.nil) ↔ t.m_size = 0)) := by
  obtain ⟨root, sz, fr⟩ := t
  cases root with
  | nil =>
    by_cases hsz : sz = 0 <;>
      simp [RBTree.validate_ok, hsz, localOrd, noRedRed, bheight, parentLinksOk]
  | node i c k v p l r =>
    simp only [RBTree.validate_ok]
    rw [if_neg (by simp)]
    rw [validate_parents_eq_parentLinksOk, validate_rbt_eq]
    by_cases hg : (localOrd (Tree.node i c k v p l r) && noRedRed (Tree.node i c k v p l r) &&
        (bheight (Tree.node i c k v p l r)).isSome) = true
    · rw [if_pos hg]
      by_cases hsz : sz = 0 <;> by_cases hp : parentLinksOk (Tree.node i c k v p l r) none <;>
        simp_all
    · rw [if_neg hg]
      have : (localOrd (Tree.node i c k v p l r) = false) ∨
          (noRedRed (Tree.node i c k v p l r) = false) ∨
          ((bheight (Tree.node i c k v p l r)).isSome = false) := by
        rcases h1 : localOrd (Tree.node i c k v p l r) <;>
          rcases h2 : noRedRed (Tree.node i c k v p l r) <;>
          rcases h3 : (bheight (Tree.node i c k v p l r)).isSome <;> simp_all
      rcases this with hx | hx | hx <;> simp [hx]


/-- Claim C3: removing a key whose node has two children returns the value
previously mapped to that key, decrements the cached size by exactly one,
removes exactly that (key, value) entry from the inorder association list,
and keeps the predecessor pair — the key and value of `find_max` of the left
subtree, which were copied into the matched node — reachable by `find` under
the predecessor's key.  The second conjunct is the operational unfolding at a
matched two-children node: the code takes the key/value of `find_max(left)`,
stores them in the matched node, recursively deletes that key from the left
subtree with the same removal logic (the recursive call alone updates
`m_size`), and runs the deletion fixup only when the recursion is not done. -/
theorem c3_remove_two_children :
    (∀ (t : RBTree) (k i : Nat) (c : Color) (v : Nat) (p : Option Nat) (l r : Tree),
      bst t.m_root = true →
      nodeAt t.m_root k = Tree.node i c k v p l r →
      l ≠ Tree.nil → r ≠ Tree.nil →
      (t.remove k).2 = some v ∧
      (t.remove k).1.m_size = t.m_size - 1 ∧
      toList (t.remove k).1.m_root = eraseKey k (toList t.m_root) ∧
      try_find_key (t.remove k).1.m_root ((find_max l).keyD) = some ((find_max l).valueD)) ∧
    (∀ (i : Nat) (c : Color) (k v : Nat) (p : Option Nat) (l r : Tree) (s : Nat),
      l ≠ Tree.nil → r ≠ Tree.nil →
      try_remove_key (Tree.node i c k v p l r) false k s =
        (let sk := (find_max l).keyD
         let sv := (find_max l).valueD
         let o := try_remove_key l false sk s
         let t2 := Tree.node i c sk sv p o.tree r
         let fin := if !o.is_done then remove_rebalance t2 false else (t2, o.is_done)
         ⟨fin.1, fin.2, some v, o.msize⟩)) := by
  constructor
  · intro t k i c v p l r hb hat hlnil hrnil
    have hsorted := sorted_keys_of_bst t.m_root hb
    have hfind : try_find_key t.m_root k = some v := by
      rw [find_eq_nodeAt, hat]
      rfl
    have hlook : lookupKey k (toList t.m_root) = some v := by
      rw [← find_eq_lookup t.m_root k hb]
      exact hfind
    obtain ⟨hrm1, hrm2, hrm3⟩ := try_remove_spec t.m_root k t.m_size hb
    have hremoved : (t.remove k).2 = some v := by
      show (try_remove_key t.m_root false k t.m_size).removed = some v
      rw [hrm1, hlook]
    have hsize : (t.remove k).1.m_size = t.m_size - 1 := by
      show (try_remove_key t.m_root false k t.m_size).msize = t.m_size - 1
      rw [hrm3, hlook]
      rfl
    have htl : toList (t.remove k).1.m_root = eraseKey k (toList t.m_root) := by
      rw [toList_remove_wrapper]
      exact hrm2
    refine ⟨hremoved, hsize, htl, ?_⟩
    -- the predecessor pair survives, associated to its own key
    have hglast := find_max_getLast l hlnil
    have hmem_l : ((find_max l).keyD, (find_max l).valueD) ∈ toList l :=
      List.mem_of_mem_getLast? hglast
    have hmem_sub : ((find_max l).keyD, (find_max l).valueD) ∈ toList (nodeAt t.m_root k) := by
      rw [hat, toList_node]
      exact List.mem_append.2 (Or.inl hmem_l)
    have hmem : ((find_max l).keyD, (find_max l).valueD) ∈ toList t.m_root := by
      obtain ⟨pre, suf, hps⟩ := nodeAt_between t.m_root k
      rw [hps]
      simp only [List.mem_append]
      exact Or.inl (Or.inr hmem_sub)
    have hpk_ne : (find_max l).keyD ≠ k := by
      have hbsub : bst (nodeAt t.m_root k) = true := bst_nodeAt t.m_root k hb
      rw [hat] at hbsub
      obtain ⟨hL, _, _, _⟩ := bst_node_parts i c k v p l r hbsub
      have : (find_max l).keyD ∈ keysList l := by
        simpa [keysList] using List.mem_map_of_mem Prod.fst hmem_l
      have := hL _ this
      omega
    have hbafter : bst (t.remove k).1.m_root = true := bst_remove_wrapper t k hb
    rw [find_eq_lookup _ _ hbafter, htl, lookup_erase_ne _ _ _ hpk_ne]
    exact lookup_of_mem_sorted _ _ _ hsorted hmem
  · intro i c k v p l r s hlnil hrnil
    exact try_remove_key_two_children i c k v p l r false s hlnil hrnil


/-- Witness for the two-children removal claim at a concrete input: the
sample tree's root (key 2) has two children; removing key 2 returns value 20
and behaves as claimed. -/
theorem c3_remove_two_children_witness :
    (bst sampleTree.m_root = true ∧
      nodeAt sampleTree.m_root 2 = Tree.node 0 Color.Black 2 20 none sampleLeft sampleRight ∧
      sampleLeft ≠ Tree.nil ∧ sampleRight ≠ Tree.nil) ∧
    ((sampleTree.remove 2).2 = some 20 ∧
      (sampleTree.remove 2).1.m_size = sampleTree.m_size - 1 ∧
      toList (sampleTree.remove 2).1.m_root = eraseKey 2 (toList sampleTree.m_root) ∧
      try_find_key (sampleTree.remove 2).1.m_root ((find_max sampleLeft).keyD) =
        some ((find_max sampleLeft).valueD)) :=
  ⟨⟨by decide, by decide, by decide, by decide⟩,
    c3_remove_two_children.1 sampleTree 2 0 Color.Black 20 none sampleLeft sampleRight
      (by decide) (by decide) (by decide) (by decide)⟩

/-- Claim C4: removing a key that `find` does not locate returns absence and
leaves the container completely unchanged — the very same root tree (all
structure, keys, values, colors and parent links) and the same size — and the
`is_done` flag is already true when the recursion unwinds, so the deletion
fixup `remove_rebalance` is never invoked on the way back up. -/
theorem c4_remove_absent :
    (∀ (t : RBTree) (k : Nat), t.find k = none → t.remove k = (t, none)) ∧
    (∀ (tr : Tree) (k s : Nat) (d0 : Bool), try_find_key tr k = none →
      try_remove_key tr d0 k s = ⟨tr, true, none, s⟩) := by
  constructor
  · intro t k hf
    have h2 := try_remove_absent t.m_root k t.m_size false hf
    show (let o := try_remove_key t.m_root false k t.m_size
      ((⟨if o.removed.isSome ∧ o.tree ≠ .nil then o.tree.setColor .Black else o.tree,
        o.msize, t.m_fresh⟩ : RBTree), o.removed)) = (t, none)
    rw [h2]
    simp
  · exact fun tr k s d0 hf => try_remove_absent tr k s d0 hf


/-- Witness for absent-key removal at a concrete input: key 42 is absent from
the sample tree and removing it returns the container unchanged with `none`. -/
theorem c4_remove_absent_witness :
    sampleTree.find 42 = none ∧ sampleTree.remove 42 = (sampleTree, none) :=
  ⟨by decide, c4_remove_absent.1 sampleTree 42 (by decide)⟩

/-- Claim C5: for a key already present (with stored value `w`): strict
`insert` returns `Failed` and leaves the container unchanged;
`insert_or_update` returns `Updated` and produces exactly `updValue`, the
value-only overwrite at that key — which restructures nothing, as witnessed by
`stripValues` equality — with unchanged size and allocator; and a subsequent
`find` of the key returns the new value. -/
theorem c5_duplicate_key_insert (t : RBTree) (k v w : Nat) (hf : t.find k = some w) :
    t.insert k v = (t, Result.Failed) ∧
    t.insert_or_update k v =
      (RBTree.mk (updValue t.m_root k v) t.m_size t.m_fresh, Result.Updated) ∧
    stripValues (updValue t.m_root k v) = stripValues t.m_root ∧
    (t.insert_or_update k v).1.find k = some v := by
  have hs := try_insert_found_strict t.m_root none k v w t.m_size t.m_fresh hf
  have hu := try_insert_found_upd t.m_root none k v w t.m_size t.m_fresh hf
  refine ⟨?_, ?_, strip_updValue t.m_root k v, ?_⟩
  · show (let o := try_insert_key_val none t.m_root k v false t.m_size t.m_fresh
      ((⟨if o.result = .Inserted then o.tree.setColor .Black else o.tree,
        o.msize, o.fresh⟩ : RBTree), o.result)) = (t, Result.Failed)
    rw [hs]
    simp
  · show (let o := try_insert_key_val none t.m_root k v true t.m_size t.m_fresh
      ((⟨if o.result = .Inserted then o.tree.setColor .Black else o.tree,
        o.msize, o.fresh⟩ : RBTree), o.result)) =
      (RBTree.mk (updValue t.m_root k v) t.m_size t.m_fresh, Result.Updated)
    rw [hu]
    simp
  · show try_find_key (t.insert_or_update k v).1.m_root k = some v
    have : (t.insert_or_update k v).1.m_root =
        (if (try_insert_key_val none t.m_root k v true t.m_size t.m_fresh).result =
            Result.Inserted
         then (try_insert_key_val none t.m_root k v true t.m_size t.m_fresh).tree.setColor
            Color.Black
         else (try_insert_key_val none t.m_root k v true t.m_size t.m_fresh).tree) := rfl
    rw [this, find_root_recolor, hu]
    exact find_updValue t.m_root k v w hf


/-- Witness for the duplicate-key insertion claim at a concrete input: key 1
is present in the sample tree with value 10. -/
theorem c5_duplicate_key_insert_witness :
    sampleTree.find 1 = some 10 ∧
    sampleTree.insert 1 99 = (sampleTree, Result.Failed) ∧
    sampleTree.insert_or_update 1 99 =
      (RBTree.mk (updValue sampleTree.m_root 1 99) sampleTree.m_size sampleTree.m_fresh,
        Result.Updated) ∧
    stripValues (updValue sampleTree.m_root 1 99) = stripValues sampleTree.m_root ∧
    (sampleTree.insert_or_update 1 99).1.find 1 = some 99 :=
  ⟨by decide,
    (c5_duplicate_key_insert sampleTree 1 99 10 (by decide)).1,
    (c5_duplicate_key_insert sampleTree 1 99 10 (by decide)).2.1,
    (c5_duplicate_key_insert sampleTree 1 99 10 (by decide)).2.2.1,
    (c5_duplicate_key_insert sampleTree 1 99 10 (by decide)).2.2.2⟩

/-- Claim C6 counterexample: the round-trip claim fails for strict `insert`
on a present key.  After inserting (1, 10) into the empty tree, a strict
`insert(1, 20)` returns `Failed` and `find(1)` still yields the old value 10,
not the just-passed value 20. -/
theorem c6_strict_insert_keeps_old_value :
    ((RBTree.empty.insert 1 10).1.insert 1 20).2 = Result.Failed ∧
    ((RBTree.empty.insert 1 10).1.insert 1 20).1.find 1 = some 10 ∧
    ((RBTree.empty.insert 1 10).1.insert 1 20).1.find 1 ≠ some 20 := by
  decide

/-- Claim C6 (amended): after `insert_or_update(k, v)`, `find(k)` returns
`v`; after strict `insert(k, v)` of a previously absent key, `find(k)`
returns `v`; strict insert of a present key leaves the previously stored
value in place (this is what the counterexample forces the original claim to
concede); and after `remove(k)`, `find(k)` returns absence. -/
theorem c6_round_trip_amended (t : RBTree) (k v : Nat) (h : bst t.m_root = true) :
    (t.insert_or_update k v).1.find k = some v ∧
    (t.find k = none → (t.insert k v).1.find k = some v) ∧
    (∀ w, t.find k = some w → (t.insert k v).1.find k = some w) ∧
    (t.remove k).1.find k = none := by
  have hsorted := sorted_keys_of_bst t.m_root h
  refine ⟨?_, ?_, ?_, ?_⟩
  · show try_find_key (t.insert_or_update k v).1.m_root k = some v
    have hb : bst (t.insert_or_update k v).1.m_root = true :=
      bst_insert_or_update_wrapper t k v h
    rw [find_eq_lookup _ k hb]
    have : toList (t.insert_or_update k v).1.m_root =
        (insList k v true (toList t.m_root)).1 := by
      show toList (if _ = Result.Inserted then _ else _) = _
      rw [toList_root_recolor]
      exact (try_insert_spec t.m_root none k v true t.m_size t.m_fresh h).1
    rw [this]
    exact insList_lookup_update k v (toList t.m_root)
  · intro hf
    show try_find_key (t.insert k v).1.m_root k = some v
    have hb : bst (t.insert k v).1.m_root = true := bst_insert_wrapper t k v h
    rw [find_eq_lookup _ k hb]
    have : toList (t.insert k v).1.m_root = (insList k v false (toList t.m_root)).1 := by
      show toList (if _ = Result.Inserted then _ else _) = _
      rw [toList_root_recolor]
      exact (try_insert_spec t.m_root none k v false t.m_size t.m_fresh h).1
    rw [this]
    refine insList_lookup_absent k v false (toList t.m_root) ?_
    rw [← find_eq_lookup t.m_root k h]
    exact hf
  · intro w hf
    show try_find_key (t.insert k v).1.m_root k = some w
    have hs := try_insert_found_strict t.m_root none k v w t.m_size t.m_fresh hf
    have : (t.insert k v).1.m_root =
        (if (try_insert_key_val none t.m_root k v false t.m_size t.m_fresh).result =
            Result.Inserted
         then (try_insert_key_val none t.m_root k v false t.m_size t.m_fresh).tree.setColor
            Color.Black
         else (try_insert_key_val none t.m_root k v false t.m_size t.m_fresh).tree) := rfl
    rw [this, find_root_recolor, hs]
    exact hf
  · show try_find_key (t.remove k).1.m_root k = none
    have hb : bst (t.remove k).1.m_root = true := bst_remove_wrapper t k h
    rw [find_eq_lookup _ k hb]
    have : toList (t.remove k).1.m_root = eraseKey k (toList t.m_root) := by
      rw [toList_remove_wrapper]
      exact (try_remove_spec t.m_root k t.m_size h).2.1
    rw [this]
    exact lookup_erase_self k (toList t.m_root) hsorted


/-- Witness for the amended round-trip claim at a concrete input. -/
theorem c6_round_trip_amended_witness :
    bst sampleTree.m_root = true ∧
    (sampleTree.insert_or_update 5 50).1.find 5 = some 50 ∧
    (sampleTree.remove 1).1.find 1 = none :=
  ⟨by decide,
    (c6_round_trip_amended sampleTree 5 50 (by decide)).1,
    (c6_round_trip_amended sampleTree 1 99 (by decide)).2.2.2⟩

/-- Claim C7: for both insertion entry points, the result is `Inserted`
exactly when the key was absent before the call, and the cached size grows by
exactly one when the result is `Inserted` and is unchanged when the result is
`Updated` or `Failed`. -/
theorem c7_insert_result_size (t : RBTree) (k v : Nat) (h : bst t.m_root = true) :
    ((t.insert k v).2 = Result.Inserted ↔ t.find k = none) ∧
    ((t.insert_or_update k v).2 = Result.Inserted ↔ t.find k = none) ∧
    (t.insert k v).1.m_size =
      (if (t.insert k v).2 = Result.Inserted then t.m_size + 1 else t.m_size) ∧
    (t.insert_or_update k v).1.m_size =
      (if (t.insert_or_update k v).2 = Result.Inserted then t.m_size + 1 else t.m_size) := by
  have hsorted := sorted_keys_of_bst t.m_root h
  obtain ⟨_, hres, hsize⟩ := try_insert_spec t.m_root none k v false t.m_size t.m_fresh h
  obtain ⟨_, hres2, hsize2⟩ := try_insert_spec t.m_root none k v true t.m_size t.m_fresh h
  have hfind : t.find k = lookupKey k (toList t.m_root) := find_eq_lookup t.m_root k h
  have e1 : (t.insert k v).2 =
      (try_insert_key_val none t.m_root k v false t.m_size t.m_fresh).result := rfl
  have e2 : (t.insert_or_update k v).2 =
      (try_insert_key_val none t.m_root k v true t.m_size t.m_fresh).result := rfl
  have e3 : (t.insert k v).1.m_size =
      (try_insert_key_val none t.m_root k v false t.m_size t.m_fresh).msize := rfl
  have e4 : (t.insert_or_update k v).1.m_size =
      (try_insert_key_val none t.m_root k v true t.m_size t.m_fresh).msize := rfl
  refine ⟨?_, ?_, ?_, ?_⟩
  · rw [e1, hres, hfind]
    exact insList_result_iff k v false (toList t.m_root) hsorted
  · rw [e2, hres2, hfind]
    exact insList_result_iff k v true (toList t.m_root) hsorted
  · rw [e1, e3, hres, hsize]
  · rw [e2, e4, hres2, hsize2]


/-- Witness for the insertion result/size claim at a concrete input. -/
theorem c7_insert_result_size_witness :
    bst sampleTree.m_root = true ∧
    ((sampleTree.insert 5 50).2 = Result.Inserted ↔ sampleTree.find 5 = none) ∧
    (sampleTree.insert 5 50).1.m_size =
      (if (sampleTree.insert 5 50).2 = Result.Inserted
       then sampleTree.m_size + 1 else sampleTree.m_size) :=
  ⟨by decide,
    (c7_insert_result_size sampleTree 5 50 (by decide)).1,
    (c7_insert_result_size sampleTree 5 50 (by decide)).2.2.1⟩

/-- Claim C8: for a tree built from an arbitrary insertion sequence, the
inorder key sequence is strictly ascending; the instrumented inorder visit
agrees with the reference list visit of the inorder association list and its
stop flag is exactly the value `visit_inorder` returns; the visited pairs are
a prefix of the inorder list; a visitor that accepts every pair visits all of
them; and when the visit stops, the trace ends at the first stopping pair and
every earlier visited pair was accepted — no further key is visited. -/
theorem c8_inorder_traversal (ops : List (Bool × Nat × Nat)) (f : Nat → Nat → Bool) :
    List.Sorted (· < ·) (keysList (buildTree ops).m_root) ∧
    visitTrace (buildTree ops).m_root f = traceList f (toList (buildTree ops).m_root) ∧
    (visitTrace (buildTree ops).m_root f).2 = visit_inorder (buildTree ops).m_root f ∧
    (∃ rest, toList (buildTree ops).m_root = (visitTrace (buildTree ops).m_root f).1 ++ rest) ∧
    ((∀ p ∈ toList (buildTree ops).m_root, f p.1 p.2 = true) →
      visitTrace (buildTree ops).m_root f = (toList (buildTree ops).m_root, true)) ∧
    ((visitTrace (buildTree ops).m_root f).2 = false →
      ∃ V0 kv, (visitTrace (buildTree ops).m_root f).1 = V0 ++ [kv] ∧
        f kv.1 kv.2 = false ∧ ∀ q ∈ V0, f q.1 q.2 = true) := by
  have hb := bst_buildTree ops
  have heq := visitTrace_eq (buildTree ops).m_root f
  refine ⟨(bst_iff_sorted _).1 hb, heq, visitTrace_snd _ f, ?_, ?_, ?_⟩
  · rw [heq]
    exact traceList_decomp f (toList (buildTree ops).m_root)
  · intro hall
    rw [heq]
    exact traceList_all f _ hall
  · intro hstop
    rw [heq] at hstop ⊢
    exact traceList_stop f _ hstop


/-- Witness for the traversal claim at a concrete input. -/
theorem c8_inorder_traversal_witness :
    List.Sorted (· < ·) (keysList (buildTree sampleOps).m_root) ∧
    visitTrace (buildTree sampleOps).m_root sampleVisitor =
      traceList sampleVisitor (toList (buildTree sampleOps).m_root) ∧
    (visitTrace (buildTree sampleOps).m_root sampleVisitor).2 =
      visit_inorder (buildTree sampleOps).m_root sampleVisitor :=
  ⟨(c8_inorder_traversal sampleOps sampleVisitor).1,
    (c8_inorder_traversal sampleOps sampleVisitor).2.1,
    (c8_inorder_traversal sampleOps sampleVisitor).2.2.1⟩

/-- Claim C9: advancing an iterator positioned at any node of any tree (to
its inorder successor) and then retreating it (to the inorder predecessor)
returns it to the original position — including across the end boundary,
since retreating from the end iterator lands on `find_max` of the root; and
on a binary-search-ordered tree that landing node carries the maximum key. -/
theorem c9_iterator_symmetry :
    (∀ (t : Tree) (p : List Bool), subtreeAt t p ≠ .nil →
      iter_dec t (iter_inc t (some p)) = some p) ∧
    (∀ t : Tree, t ≠ .nil →
      iter_dec t end_pos = some (maxPath t) ∧ subtreeAt t (maxPath t) = find_max t) ∧
    (∀ t : Tree, bst t = true → ∀ x ∈ keysList t, x ≤ (find_max t).keyD) := by
  refine ⟨prev_next_node, ?_, ?_⟩
  · intro t ht
    constructor
    · show iter_dec t none = some (maxPath t)
      rcases t with _ | ⟨i, c, k, v, p, l, r⟩
      · exact absurd rfl ht
      · rfl
    · exact subtreeAt_maxPath t
  · intro t hb x hx
    have hne : t ≠ Tree.nil := by
      intro h0
      rw [h0] at hx
      simp [keysList, toList] at hx
    have hgl := find_max_getLast t hne
    have hkeys : (keysList t).getLast? = some ((find_max t).keyD) := by
      rw [keysList, List.getLast?_map, hgl]
      rfl
    exact sorted_all_le_getLast (keysList t) ((find_max t).keyD)
      ((bst_iff_sorted t).1 hb) hkeys x hx

/-- Witness for the iterator symmetry claim at a concrete input: the root
position of the sample tree. -/
theorem c9_iterator_symmetry_witness :
    subtreeAt sampleTree.m_root [] ≠ Tree.nil ∧
    iter_dec sampleTree.m_root (iter_inc sampleTree.m_root (some [])) = some [] ∧
    sampleTree.m_root ≠ Tree.nil ∧
    iter_dec sampleTree.m_root end_pos = some (maxPath sampleTree.m_root) ∧
    subtreeAt sampleTree.m_root (maxPath sampleTree.m_root) = find_max sampleTree.m_root :=
  ⟨by decide,
    c9_iterator_symmetry.1 sampleTree.m_root [] (by decide),
    by decide,
    (c9_iterator_symmetry.2.1 sampleTree.m_root (by decide)).1,
    (c9_iterator_symmetry.2.1 sampleTree.m_root (by decide)).2⟩

/-- Claim C10: incrementing the end iterator yields the end iterator again
(`next_node(nullptr)` is null); decrementing the end iterator of the empty
tree yields the end iterator (`find_max` of a null root is null); and
`begin()` equals `end()` exactly when the tree is empty. -/
theorem c10_end_iterator_boundary (t : Tree) :
    iter_inc t end_pos = end_pos ∧
    iter_dec Tree.nil end_pos = end_pos ∧
    (begin_pos t = end_pos ↔ t = Tree.nil) := by
  refine ⟨rfl, rfl, ?_⟩
  cases t <;> simp [begin_pos, end_pos]

end RBTreeSpec
